import Mathlib

/-!
Verification development for the jframe template engine
(tokenizer → parser → compiler → generated render artifact).

The JavaScript sources are shallowly embedded: template strings and
expression strings are `List Char`, JS runtime values are the inductive
`JValue`, the generated JavaScript render function is embedded as a list
of statements `Stmt` over generated-expression code `CExpr`, and a fueled
evaluator gives the artifact's semantics.  Machine floats do not occur in
any claim; numeric literals and values are modelled by `Int` (the integer
fragment of JS numbers).  Runtime exceptions are modelled by `RtErr`
kinds (their message text is not modelled).
-/

namespace JF

/-- Shorthand: the character list of a string literal. -/
def cs (s : String) : List Char := s.data

/-- Whitespace recognized by `String.prototype.trim` / `\s`
(ASCII fragment; exotic Unicode space code points do not occur in the claims). -/
def isWsChar (c : Char) : Bool :=
  c = ' ' || c = '\t' || c = '\n' || c = '\r' || c = '\x0b' || c = '\x0c'

/-- First character of a JS identifier: `[a-zA-Z_$]`. -/
def isIdentStart (c : Char) : Bool :=
  (('a' ≤ c && c ≤ 'z') || ('A' ≤ c && c ≤ 'Z')) || c = '_' || c = '$'

/-- Later character of a JS identifier: `[a-zA-Z0-9_$]`. -/
def isIdentChar (c : Char) : Bool :=
  isIdentStart c || ('0' ≤ c && c ≤ '9')

/-- A character of the regex class `\w`: `[a-zA-Z0-9_]`. -/
def isWordChar (c : Char) : Bool :=
  (('a' ≤ c && c ≤ 'z') || ('A' ≤ c && c ≤ 'Z')) || ('0' ≤ c && c ≤ '9') || c = '_'

/-- `String.prototype.trim`. -/
def trimL (s : List Char) : List Char :=
  ((s.dropWhile isWsChar).reverse.dropWhile isWsChar).reverse

/-- `String.prototype.indexOf` for a pattern: index of the first occurrence. -/
def findSub (pat : List Char) : List Char → Option Nat
  | [] => if pat = [] then some 0 else none
  | c :: rest =>
    if pat.isPrefixOf (c :: rest) then some 0
    else (findSub pat (rest)).map (· + 1)

/-- Whether `pat` occurs as a contiguous substring (`String.prototype.includes`). -/
def containsSub (pat : List Char) (s : List Char) : Bool :=
  (findSub pat s).isSome

/-- Split on every (non-overlapping, leftmost-first) occurrence of `pat`;
fueled so the recursion is structural.  With `fuel > s.length` the fuel
never runs out for a non-empty `pat`. -/
def splitSubF (pat : List Char) : Nat → List Char → List (List Char)
  | 0, s => [s]
  | fuel + 1, s =>
    match findSub pat s with
    | none => [s]
    | some i => s.take i :: splitSubF pat fuel (s.drop (i + pat.length))

def splitSub (pat : List Char) (s : List Char) : List (List Char) :=
  splitSubF pat (s.length + 1) s

/-- `String.prototype.replace` with a global flag for a literal pattern. -/
def replaceAll (pat rep : List Char) (s : List Char) : List Char :=
  List.intercalate rep (splitSub pat s)

/-- `String.prototype.split('.')`. -/
def splitDot : List Char → List (List Char)
  | [] => [[]]
  | c :: rest =>
    if c = '.' then [] :: splitDot rest
    else
      match splitDot rest with
      | [] => [[c]]
      | seg :: segs => (c :: seg) :: segs

/-- Decimal digits of a natural number (for rendering integer values). -/
def natDigits : Nat → List Char
  | n => (Nat.toDigits 10 n)

/-- JS decimal rendering of an integer value. -/
def intRepr (n : Int) : List Char :=
  if n < 0 then '-' :: natDigits n.natAbs else natDigits n.natAbs

/-! ## Runtime values -/

/-- JS runtime values, restricted to the forms the engine manipulates.
Numbers are modelled by `Int` (no claim involves non-integer arithmetic);
object fields are ordered association lists.  Reference identity of
objects/arrays is not modelled. -/
inductive JValue where
  | undef
  | null
  | bool (b : Bool)
  | num (n : Int)
  | str (s : List Char)
  | arr (elems : List JValue)
  | obj (fields : List (List Char × JValue))
  deriving Repr

/-- JS truthiness (`!!v`).  `NaN` cannot arise in the `Int` model. -/
def truthy : JValue → Bool
  | .undef => false
  | .null => false
  | .bool b => b
  | .num n => n != 0
  | .str s => !s.isEmpty
  | .arr _ => true
  | .obj _ => true

/-- Field lookup on an object: first binding wins, missing → `undefined`. -/
def lookupField : List (List Char × JValue) → List Char → JValue
  | [], _ => .undef
  | (k, v) :: rest, p => if k = p then v else lookupField rest p

mutual
/-- `String(v)`: JS ToString.  Objects render as `[object Object]`
(prototype overrides are not modelled); arrays render as their
comma-joined elements with `null`/`undefined` elements blank. -/
def jsString : JValue → List Char
  | .undef => cs "undefined"
  | .null => cs "null"
  | .bool b => if b then cs "true" else cs "false"
  | .num n => intRepr n
  | .str s => s
  | .arr xs => jsJoin xs
  | .obj _ => cs "[object Object]"

def jsJoin : List JValue → List Char
  | [] => []
  | [x] => jsElem x
  | x :: y :: rest => jsElem x ++ ',' :: jsJoin (y :: rest)

/-- `Array.prototype.join` renders `null`/`undefined` elements as empty;
other elements render by `String(...)`. -/
def jsElem : JValue → List Char
  | .undef => []
  | .null => []
  | .bool b => if b then cs "true" else cs "false"
  | .num n => intRepr n
  | .str s => s
  | .arr xs => jsJoin xs
  | .obj _ => cs "[object Object]"
end

/-! ## utils.js -/

/-- `escapeHtml` from src/utils.js: `null`/`undefined` → empty string,
otherwise `String(str)` with the five successive global replacements. -/
def escapeHtml (v : JValue) : List Char :=
  match v with
  | .null => []
  | .undef => []
  | v =>
    (replaceAll (cs "\x27") (cs "&#39;")
      (replaceAll (cs "\x22") (cs "&quot;")
        (replaceAll (cs ">") (cs "&gt;")
          (replaceAll (cs "<") (cs "&lt;")
            (replaceAll (cs "&") (cs "&amp;") (jsString v))))))

/-- `typeof v === 'object'` (true for objects, arrays and `null`). -/
def isObjectTypeof : JValue → Bool
  | .null => true
  | .arr _ => true
  | .obj _ => true
  | _ => false

/-- One step `result[key]` as used inside `deepGet` (only reached when
`result` is a non-null object or array). -/
def rawIndex : JValue → List Char → JValue
  | .obj fs, k => lookupField fs k
  | .arr xs, k => if k = cs "length" then .num xs.length else .undef
  | _, _ => (.undef)

/-- The walk loop of `deepGet`. -/
def deepGetWalk : JValue → List (List Char) → JValue
  | r, [] => r
  | r, k :: ks =>
    match r with
    | .null => .undef
    | .undef => .undef
    | .obj fs => deepGetWalk (rawIndex (.obj fs) k) ks
    | .arr xs => deepGetWalk (rawIndex (.arr xs) k) ks
    | _ => (.undef)

/-- `deepGet` from src/utils.js: safe nested lookup along a dotted path. -/
def deepGet (obj : JValue) (path : List Char) : JValue :=
  if !truthy obj || !isObjectTypeof obj then .undef
  else if path = [] then obj
  else deepGetWalk obj (splitDot path)

/-! ## Tokenizer (src/tokenizer.js) -/

/-- Tokens produced by the tokenizer (`TOKEN_TYPES`). -/
inductive Token where
  | text (value : List Char)
  | var (expression : List Char)
  | raw (expression : List Char)
  | ifStart (condition : List Char)
  | eachStart (items : List Char)
  | ifEnd
  | eachEnd
  deriving Repr, DecidableEq

/-- `Tokenizer._processExpression`: classify the trimmed inner content of a
marker; returns the tokens pushed for it. -/
def processExpression (expression : List Char) (isRaw : Bool) :
    Except String (List Token) :=
  if isRaw then .ok [.raw expression]
  else if (cs "#if ").isPrefixOf expression then
    let condition := trimL (expression.drop 4)
    if condition = [] then .error "If directive requires a condition"
    else .ok [.ifStart condition]
  else if (cs "#each ").isPrefixOf expression then
    let items := trimL (expression.drop 6)
    if items = [] then .error "Each directive requires an items expression"
    else .ok [.eachStart items]
  else if expression = cs "/if" then .ok [.ifEnd]
  else if expression = cs "/each" then .ok [.eachEnd]
  else if (cs "/").isPrefixOf expression then
    .error ("Unknown closing directive: " ++ expression.asString)
  else .ok [.var expression]

/-- Handling of one marker (from the opening braces to past the closing
marker): find the closing braces, classify the trimmed inner content,
then continue scanning through `next` just past the closer.  `skip` is
the width of the opening delimiter, `closeMarker` that of the closing
one. -/
def scanMarker (next : Nat → List Char → Except String (List Token))
    (pos : Nat) (raw3 : Bool) (inner : List Char) : Except String (List Token) :=
  let closeMarker : List Char := if raw3 then cs "\x7d\x7d\x7d" else cs "\x7d\x7d"
  let skip : Nat := if raw3 then 3 else 2
  match findSub closeMarker inner with
  | none => .error ("Unclosed expression at position " ++ toString pos)
  | some i => do
    let expression := trimL (inner.take i)
    let ts ← processExpression expression raw3
    let rem := inner.drop (i + closeMarker.length)
    let tks ← next (pos + skip + i + closeMarker.length) rem
    .ok (ts ++ tks)

/-- The scanning loop of `Tokenizer.tokenize`; `pos` mirrors the source's
`position` counter (used only in the unclosed-marker message), `buf` the
accumulated `textBuffer`.  A marker is raw exactly when a third opening
brace follows the first two.  Fueled: the remaining input shrinks at
every recursive call, so `template.length + 1` fuel never runs out. -/
def tokenizeGo : Nat → Nat → List Char → List Char → Except String (List Token)
  | 0, _, _, _ => .error "tokenizer fuel exhausted"
  | fuel + 1, pos, s, buf =>
    match s with
    | '\x7b' :: '\x7b' :: rest =>
      let flushed : List Token := if buf = [] then [] else [Token.text buf]
      let raw3 : Bool := rest.head? == some '\x7b'
      let inner : List Char := if raw3 then rest.drop 1 else rest
      (scanMarker (fun p s2 => tokenizeGo fuel p s2 []) pos raw3 inner).map
        (fun ts => flushed ++ ts)
    | c :: rest => tokenizeGo fuel (pos + 1) rest (buf ++ [c])
    | [] => .ok (if buf = [] then [] else [Token.text buf])

/-- `Tokenizer.tokenize` (the input is already known to be a string). -/
def tokenize (template : List Char) : Except String (List Token) :=
  if template = [] then .ok []
  else tokenizeGo (template.length + 1) 0 template []

/-! ## Parser (src/parser.js) -/

/-- AST nodes (`NODE_TYPES`). -/
inductive Node where
  | text (value : List Char)
  | variable (expression : List Char)
  | rawVariable (expression : List Char)
  | ifN (condition : List Char) (children : List Node)
  | eachN (items : List Char) (children : List Node)
  | root (children : List Node)
  deriving Repr

/-- `Parser._parseTokens` (with `Parser._parseBlock` inlined at the two
block cases, exactly mirroring its end-token check): parses siblings until
a block-close token (returned unconsumed) or the end of input, and returns
the nodes together with the unconsumed suffix.  Fueled: every recursive
call is on a strictly shorter token list, so `tokens.length + 1` fuel
never runs out. -/
def parseSibF : Nat → List Token → Except String (List Node × List Token)
  | 0, _ => .error "parser fuel exhausted"
  | _ + 1, [] => .ok ([], [])
  | fuel + 1, t :: rest =>
    match t with
    | .text v => do
      let (ns, r) ← parseSibF fuel rest
      .ok (Node.text v :: ns, r)
    | .var e => do
      let (ns, r) ← parseSibF fuel rest
      .ok (Node.variable e :: ns, r)
    | .raw e => do
      let (ns, r) ← parseSibF fuel rest
      .ok (Node.rawVariable e :: ns, r)
    | .ifEnd => .ok ([], Token.ifEnd :: rest)
    | .eachEnd => .ok ([], Token.eachEnd :: rest)
    | .ifStart c => do
      let (kids, r) ← parseSibF fuel rest
      match r with
      | .ifEnd :: r2 => do
        let (ns, r3) ← parseSibF fuel r2
        .ok (Node.ifN c kids :: ns, r3)
      | _ => .error "Unclosed \x7b\x7b#if\x7d\x7d directive"
    | .eachStart e => do
      let (kids, r) ← parseSibF fuel rest
      match r with
      | .eachEnd :: r2 => do
        let (ns, r3) ← parseSibF fuel r2
        .ok (Node.eachN e kids :: ns, r3)
      | _ => .error "Unclosed \x7b\x7b#each\x7d\x7d directive"

/-- `Parser.parse`: parse all tokens and require the cursor to be at the
end of input. -/
def parse (tokens : List Token) : Except String Node := do
  let (ns, r) ← parseSibF (tokens.length + 1) tokens
  if r = [] then .ok (Node.root ns)
  else .error "Unexpected tokens at end of template"

/-! ## Generated-code syntax

The compiler emits JavaScript source text.  Its expression fragments are
embedded as `CExpr` and the emitted statement lines as `Stmt`, with each
constructor corresponding to one code shape the source interpolates:
`CExpr.js t` is a raw expression text `t` (the output of
`_compileComplexExpression` or an interpolated binding name),
`CExpr.get p` is `__get(ctx, "p")`, `CExpr.strLit`/`CExpr.numLit` are
literal comparison operands emitted verbatim, `CExpr.bin`/`CExpr.truthy`
are the comparison/`!!` condition shapes. -/

inductive BinOp where
  | eq | neq | gt | gte | lt | lte | and | or
  deriving Repr, DecidableEq

inductive CExpr where
  | js (t : List Char)
  | get (path : List Char)
  | strLit (s : List Char)
  | numLit (s : List Char)
  | bin (op : BinOp) (l r : CExpr)
  | truthy (e : CExpr)
  deriving Repr

/-- `output.push(...)` lines and control blocks of the generated function.
`pushLit` is `output.push(<string literal>)` for a Text node, `pushEscaped`
is `output.push(__escape(e))`, `pushRaw` is `output.push(String(e))`,
`ifS` is the `if (c) { ... }` block and `eachS` is the
`var items_k = e; if (Array.isArray(items_k)) { for (var index_k ...) { var item_k = items_k[index_k]; ... } }`
block with its three interpolated binding names (the array variable, the
item variable and the index variable). -/
inductive Stmt where
  | pushLit (s : List Char)
  | pushEscaped (e : CExpr)
  | pushRaw (e : CExpr)
  | ifS (c : CExpr) (body : List Stmt)
  | eachS (items : CExpr) (itemsName itemName indexName : List Char) (body : List Stmt)
  deriving Repr

/-- The loop-scope chain carried during code generation. -/
inductive LoopCtx where
  | mk (itemName indexName : List Char) (parent : Option LoopCtx)

def LoopCtx.itemName : LoopCtx → List Char
  | .mk i _ _ => i

def LoopCtx.indexName : LoopCtx → List Char
  | .mk _ i _ => i

def LoopCtx.parent : LoopCtx → Option LoopCtx
  | .mk _ _ p => p

/-! ## Compiler (src/compiler.js) -/

/-- Occurrence of `pat` at the head of `s` followed by a `\b` word
boundary (the next character is not `\w`, or the string ends). -/
def methodPatAt (pat s : List Char) : Bool :=
  pat.isPrefixOf s &&
    (match s.drop pat.length with
     | [] => true
     | c :: _ => !isWordChar c)

/-- Occurrence of `pat` anywhere in `s` followed by a word boundary
(models regexes of the shape `/\.length\b/`). -/
def containsMethodPat (pat : List Char) : List Char → Bool
  | [] => false
  | c :: rest => methodPatAt pat (c :: rest) || containsMethodPat pat rest

/-- `Compiler._isComplexExpression`: the disjunction of the source's
`complexPatterns` regex tests. -/
def isComplexExpression (e : List Char) : Bool :=
  e.contains '(' || e.contains ')' ||
  e.contains '+' || e.contains '-' || e.contains '*' || e.contains '/' ||
  containsMethodPat (cs ".length") e ||
  containsMethodPat (cs ".split") e ||
  containsMethodPat (cs ".join") e ||
  containsMethodPat (cs ".toUpperCase") e ||
  containsMethodPat (cs ".toLowerCase") e ||
  containsMethodPat (cs ".trim") e ||
  containsMethodPat (cs ".slice") e ||
  containsMethodPat (cs ".substring") e ||
  containsMethodPat (cs ".charAt") e ||
  containsMethodPat (cs ".filter") e ||
  containsSub (cs "=>") e ||
  containsSub (cs "@index") e

/-- One segment of the identifier-path regex: `[a-zA-Z_$][a-zA-Z0-9_$]*`. -/
def isIdentSeg : List Char → Bool
  | [] => false
  | c :: rest => isIdentStart c && rest.all isIdentChar

/-- The dotted-path regex `^[a-zA-Z_$][a-zA-Z0-9_$]*(\.[a-zA-Z_$][a-zA-Z0-9_$]*)*$`
(`isValidPath` in src/utils.js and the inline tests in the compiler). -/
def isValidPath (e : List Char) : Bool :=
  (splitDot e).all isIdentSeg

/-- A JS integer literal with optional sign (the integer fragment of the
numeric strings accepted by `!isNaN(...)`; non-integer numerals do not
occur in any claim). -/
def isIntLit : List Char → Bool
  | [] => false
  | '-' :: ds => !ds.isEmpty && ds.all Char.isDigit
  | ds => ds.all Char.isDigit

/-- Models the `new Function('return ' + jsExpr)` syntax check narrowly:
it accepts exactly dotted identifier chains and integer literals, on
which it agrees with the JS engine.  Richer forms the engine would also
accept (arithmetic, parenthesized expressions, calls, rewritten arrow
functions) are rejected by the model, so theorems quantifying over
expressions must restrict themselves to texts whose compilation never
depends on the model's rejection of such forms (the determinism claim
does so through its fragment hypothesis `fragTxt`). -/
def validateJsExpr (e : List Char) : Bool :=
  isIntLit e || isValidPath e

/-- Models the arrow-function rewrite
`jsExpr.replace(/([a-zA-Z_$][a-zA-Z0-9_$]*)\s*=>\s*(.+)/g, 'function($1) { return $2 }')`
for the leftmost match (on a single expression the greedy `(.+)` consumes
the rest of the text, so at most one replacement fires).  A rewritten
output is a `function(...) {...}` text that the engine accepts but the
narrow `validateJsExpr` above does not, so arrow expressions lie outside
the fragment the determinism claim quantifies over. -/
def matchArrowAt (s : List Char) : Option (List Char × List Char) :=
  match s with
  | c :: rest =>
    if isIdentStart c then
      let run := rest.takeWhile isIdentChar
      let after := rest.drop run.length
      let afterWs := after.dropWhile isWsChar
      match afterWs with
      | '=' :: '>' :: tail =>
        let body := tail.dropWhile isWsChar
        if body = [] then none else some (c :: run, body)
      | _ => none
    else none
  | [] => none

def arrowGo : List Char → Option (List Char × List Char × List Char)
  | [] => none
  | c :: rest =>
    match matchArrowAt (c :: rest) with
    | some (p, b) => some ([], p, b)
    | none =>
      match arrowGo rest with
      | some (pre, p, b) => some (c :: pre, p, b)
      | none => none

def arrowRewrite (e : List Char) : List Char :=
  match arrowGo e with
  | some (pre, p, b) =>
    pre ++ cs "function(" ++ p ++ cs ") \x7b return " ++ b ++ cs " \x7d"
  | none => e

/-- `Compiler._compileComplexExpression`: `@index` substitution, `this`
substitution under a loop scope, arrow rewriting, then the syntax check.
The JS engine's parse-error message is not modelled. -/
def compileComplexExpression (expression : List Char)
    (loopContext : Option LoopCtx) : Except String (List Char) :=
  let jsExpr := expression
  let jsExpr :=
    if containsSub (cs "@index") jsExpr then
      match loopContext with
      | some lc => replaceAll (cs "@index") lc.indexName jsExpr
      | none => replaceAll (cs "@index") (cs "0") jsExpr
    else jsExpr
  let jsExpr :=
    match loopContext with
    | some lc =>
      if jsExpr = cs "this" then lc.itemName
      else if (cs "this.").isPrefixOf jsExpr then
        lc.itemName ++ '.' :: jsExpr.drop 5
      else jsExpr
    | none => jsExpr
  let jsExpr :=
    if containsSub (cs "=>") jsExpr then arrowRewrite jsExpr else jsExpr
  if validateJsExpr jsExpr then .ok jsExpr
  else .error ("Invalid complex expression: " ++ expression.asString)

/-- `Compiler._generateAccessCode`. -/
def generateAccessCode (expression : List Char) (loopContext : Option LoopCtx) :
    Except String CExpr :=
  if expression = cs "this" then
    .ok (.js (match loopContext with
      | some lc => lc.itemName
      | none => cs "ctx"))
  else if (cs "this.").isPrefixOf expression then
    let prop := expression.drop 5
    match loopContext with
    | some lc =>
      (compileComplexExpression (lc.itemName ++ '.' :: prop) loopContext).map .js
    | none =>
      (compileComplexExpression (cs "ctx." ++ prop) none).map .js
  else if isComplexExpression expression then
    (compileComplexExpression expression loopContext).map .js
  else if isValidPath expression then
    .ok (.get expression)
  else .error ("Invalid variable expression: " ++ expression.asString)

/-- `Compiler._generateVariableCode`. -/
def generateVariableCode (expression : List Char) (isRaw : Bool)
    (loopContext : Option LoopCtx) : Except String (List Stmt) :=
  if trimL expression = [] then .error "Empty variable expression"
  else
    (generateAccessCode expression loopContext).map
      (fun a => [if isRaw then Stmt.pushRaw a else Stmt.pushEscaped a])

/-- The greedy split of the comparison regex
`^\((\w+)\s+([^)]+)\s+([^)]+)\)$` after the operator and its following
whitespace run: the backtracking-greedy `([^)]+)\s+([^)]+)` split of the
remainder `R` takes the largest `k ≤ R.length - 2` with `R[k]`
whitespace as the end of the second group, then the longest whitespace
run at `k` that still leaves the third group non-empty. -/
def findG2 (R : List Char) : Option Nat :=
  (((List.range R.length).filter
      (fun k => 1 ≤ k && k + 2 ≤ R.length &&
        (match (R.drop k).head? with
         | some c => isWsChar c
         | none => false))).getLast?)

def greedySplit (R : List Char) : Option (List Char × List Char) :=
  match findG2 R with
  | none => none
  | some k =>
    let run := ((R.drop k).takeWhile isWsChar).length
    let wsLen := min run (R.length - k - 1)
    some (R.take k, R.drop (k + wsLen))

/-- The body of the comparison-regex match after the leading `\(`:
anchored trailing `\)`, maximal `\w+` operator, maximal following
whitespace, no `)` in the remainder, then the greedy operand split. -/
def matchCmpInner (rest : List Char) :
    Option (List Char × List Char × List Char) :=
  if rest.getLast? = some ')' then
    let mid := rest.dropLast
    let op := mid.takeWhile isWordChar
    let r1 := mid.drop op.length
    if op = [] then none
    else
      let ws := r1.takeWhile isWsChar
      let R := r1.drop ws.length
      if ws = [] then none
      else if R.contains ')' then none
      else
        match greedySplit R with
        | none => none
        | some (l, r) => some (op, l, r)
  else none

/-- The match of `condition.match(/^\((\w+)\s+([^)]+)\s+([^)]+)\)$/)`:
operator, left operand text, right operand text. -/
def matchComparison (condition : List Char) :
    Option (List Char × List Char × List Char) :=
  match condition with
  | '(' :: rest => matchCmpInner rest
  | _ => none

def opOf (op : List Char) : Option BinOp :=
  if op = cs "eq" then some .eq
  else if op = cs "neq" then some .neq
  else if op = cs "gt" then some .gt
  else if op = cs "gte" then some .gte
  else if op = cs "lt" then some .lt
  else if op = cs "lte" then some .lte
  else if op = cs "and" then some .and
  else if op = cs "or" then some .or
  else none

/-- `Compiler._generateComparisonOperand`.  A quoted operand is emitted
verbatim as a string literal (its value is the text between the quotes);
a numeric literal is emitted verbatim. -/
def generateComparisonOperand (operand0 : List Char)
    (loopContext : Option LoopCtx) : Except String CExpr :=
  let operand := trimL operand0
  let quoted :=
    (operand.head? = some '\x27' && operand.getLast? = some '\x27') ||
    (operand.head? = some '\x22' && operand.getLast? = some '\x22')
  if quoted then .ok (.strLit (operand.drop 1).dropLast)
  else if isIntLit operand then .ok (.numLit operand)
  else if isComplexExpression operand then
    (compileComplexExpression operand loopContext).map .js
  else generateAccessCode operand loopContext

/-- `Compiler._generateConditionCode`. -/
def generateConditionCode (condition0 : List Char)
    (loopContext : Option LoopCtx) : Except String CExpr :=
  let condition := trimL condition0
  match matchComparison condition with
  | some (op, left, right) => do
    let l ← generateComparisonOperand (trimL left) loopContext
    let r ← generateComparisonOperand (trimL right) loopContext
    match opOf op with
    | some o => .ok (.bin o l r)
    | none => .error ("Unsupported comparison operator: " ++ op.asString)
  | none =>
    if isComplexExpression condition then
      (generateAccessCode condition loopContext).map .truthy
    else if (cs "this.").isPrefixOf condition then
      let prop := condition.drop 5
      match loopContext with
      | some lc => .ok (.truthy (.js (lc.itemName ++ '.' :: prop)))
      | none => .ok (.truthy (.get prop))
    else if isValidPath condition then
      (generateAccessCode condition loopContext).map .truthy
    else .error ("Invalid condition expression: " ++ condition.asString)

mutual
/-- `Compiler._generateNodeCode`, parameterized by the loop-id supply `g`
(the source draws `Math.random()` ids; `g cnt` is the id drawn for the
`cnt`-th `Each` node in generation order) and threading that counter.
Returns the statements for one node together with the updated counter. -/
def generateNodeCode (g : Nat → List Char) (cnt : Nat)
    (loopContext : Option LoopCtx) :
    Node → Except String (List Stmt × Nat)
  | .text v => .ok ([Stmt.pushLit v], cnt)
  | .variable e => (generateVariableCode e false loopContext).map (fun s => (s, cnt))
  | .rawVariable e => (generateVariableCode e true loopContext).map (fun s => (s, cnt))
  | .ifN c kids => do
    let cc ← generateConditionCode c loopContext
    let (body, cnt2) ← generateNodeListCode g cnt loopContext kids
    .ok ([Stmt.ifS cc body], cnt2)
  | .eachN itemsE kids => do
    let itemsC ← generateAccessCode itemsE loopContext
    let lid := g cnt
    let itemsName := cs "items_" ++ lid
    let itemName := cs "item_" ++ lid
    let indexName := cs "index_" ++ lid
    let lc2 := some (LoopCtx.mk itemName indexName loopContext)
    let (body, cnt2) ← generateNodeListCode g (cnt + 1) lc2 kids
    .ok ([Stmt.eachS itemsC itemsName itemName indexName body], cnt2)
  | .root _ => .error "Unknown node type: Root"

def generateNodeListCode (g : Nat → List Char) (cnt : Nat)
    (loopContext : Option LoopCtx) :
    List Node → Except String (List Stmt × Nat)
  | [] => .ok ([], cnt)
  | n :: rest => do
    let (ss, cnt1) ← generateNodeCode g cnt loopContext n
    let (ss2, cnt2) ← generateNodeListCode g cnt1 loopContext rest
    .ok (ss ++ ss2, cnt2)
end

/-- `Compiler.compile` (the `new Function` wrapping is the evaluator
below; the header lines binding `__escape`/`__get` are the fixed runtime
primitives of the evaluator). -/
def compileAst (g : Nat → List Char) (ast : Node) : Except String (List Stmt) :=
  match ast with
  | .root kids => (generateNodeListCode g 0 none kids).map (fun p => p.1)
  | _ => .error "Invalid AST: expected Root node"

/-! ## Semantics of the generated artifact

The generated function body is run by a fueled evaluator.  The
environment holds the function parameter `ctx` and the loop bindings
introduced by the `var items_k = ...`, `var item_k = ...` and
`var index_k = ...` declarations of an Each block.  JS `var` bindings
are function-scoped and hoisted; the model scopes them to their block
(the array binding for the whole block, the item and index bindings for
the body of each iteration).  The two scopings agree as long as no
expression reads a loop variable outside its own loop, which holds for
every expression the compiler emits from the fragment the determinism
claim is stated on.  The helpers `output`, `__escape` and `__get` of the
generated function's scope are the evaluator's own primitives, not
environment entries, so raw expression texts naming them are not
modelled (they too are outside that fragment).  Runtime errors are
modelled as kinds without message text. -/

inductive RtErr where
  | typeErr   -- property access on undefined/null
  | refErr    -- reference to an unbound identifier (strict mode)
  | fuelErr   -- evaluator fuel exhausted (never with adequate fuel)
  deriving Repr, DecidableEq

abbrev Env := List (List Char × JValue)

def lookupEnv : Env → List Char → Option JValue
  | [], _ => none
  | (k, v) :: rest, n => if k = n then some v else lookupEnv rest n

/-- Integer value of a literal accepted by `isIntLit`. -/
def digitsVal (ds : List Char) : Nat :=
  ds.foldl (fun acc c => acc * 10 + (c.toNat - '0'.toNat)) 0

def parseNumLit (s : List Char) : Int :=
  match s with
  | '-' :: ds => -(digitsVal ds : Int)
  | ds => (digitsVal ds : Int)

/-- Property access `v.p` in the generated code (direct member access, not
`__get`): raises `TypeError` on `undefined`/`null`, yields `length` on
strings and arrays, a field lookup on objects, and `undefined` otherwise.
Prototype-chain methods and numeric array indices are not modelled; the
compiler only emits identifier properties. -/
def memberAccess : JValue → List Char → Except RtErr JValue
  | .undef, _ => .error .typeErr
  | .null, _ => .error .typeErr
  | .str s, p => .ok (if p = cs "length" then .num s.length else .undef)
  | .arr xs, p => .ok (if p = cs "length" then .num xs.length else .undef)
  | .num _, _ => .ok .undef
  | .bool _, _ => .ok .undef
  | .obj fs, p => .ok (lookupField fs p)

def walkProps : JValue → List (List Char) → Except RtErr JValue
  | v, [] => .ok v
  | v, p :: ps => do walkProps (← memberAccess v p) ps

/-- Evaluation of a raw generated expression text: an integer literal, or
a dotted chain whose root is looked up in the environment (an unbound
root is a strict-mode `ReferenceError`). -/
def evalJsText (t : List Char) (env : Env) : Except RtErr JValue :=
  if isIntLit t then .ok (.num (parseNumLit t))
  else
    match splitDot t with
    | [] => .error .refErr
    | root :: props =>
      match lookupEnv env root with
      | none => .error .refErr
      | some v => walkProps v props

/-- `===` on the modelled values.  Reference equality of two distinct
object/array literals is not modelled: comparing composites yields
`false` (the claims compare only primitives). -/
def jsStrictEq : JValue → JValue → Bool
  | .undef, .undef => true
  | .null, .null => true
  | .bool a, .bool b => a = b
  | .num a, .num b => a = b
  | .str a, .str b => a = b
  | _, _ => false

def lexLtL : List Char → List Char → Bool
  | [], [] => false
  | [], _ :: _ => true
  | _ :: _, [] => false
  | a :: as, b :: bs => if a < b then true else if b < a then false else lexLtL as bs

def lexLeL (a b : List Char) : Bool := !lexLtL b a

/-- JS ToNumber on the modelled values; `none` is NaN.  Strings parse
through the integer fragment (the claims use no non-integer numerals);
arrays convert through their joined string form; plain objects are NaN. -/
def toNumberJ : JValue → Option Int
  | .undef => none
  | .null => some 0
  | .bool b => some (if b then 1 else 0)
  | .num n => some n
  | .str s =>
    let t := trimL s
    if t = [] then some 0
    else if isIntLit t then some (parseNumLit t) else none
  | .arr xs =>
    let t := trimL (jsString (.arr xs))
    if t = [] then some 0
    else if isIntLit t then some (parseNumLit t) else none
  | .obj _ => none

/-- The abstract relational comparison `a < b`: lexicographic when both
operands are strings, otherwise numeric with NaN making it false. -/
def jsLt (a b : JValue) : Bool :=
  match a, b with
  | .str x, .str y => lexLtL x y
  | _, _ =>
    match toNumberJ a, toNumberJ b with
    | some x, some y => x < y
    | _, _ => false

/-- `a <= b` (i.e. `!(b < a)`, false when a NaN is involved). -/
def jsLe (a b : JValue) : Bool :=
  match a, b with
  | .str x, .str y => lexLeL x y
  | _, _ =>
    match toNumberJ a, toNumberJ b with
    | some x, some y => x ≤ y
    | _, _ => false

/-- Evaluation of a generated expression.  `&&`/`||` short-circuit and
return an operand value as in JS. -/
def evalCExpr : CExpr → Env → Except RtErr JValue
  | .js t, env => evalJsText t env
  | .get p, env =>
    match lookupEnv env (cs "ctx") with
    | some c => .ok (deepGet c p)
    | none => .error .refErr
  | .strLit s, _ => .ok (.str s)
  | .numLit s, _ => .ok (.num (parseNumLit s))
  | .truthy e, env => (evalCExpr e env).map (fun v => .bool (truthy v))
  | .bin .and l r, env => do
    let lv ← evalCExpr l env
    if truthy lv then evalCExpr r env else .ok lv
  | .bin .or l r, env => do
    let lv ← evalCExpr l env
    if truthy lv then .ok lv else evalCExpr r env
  | .bin .eq l r, env => do
    let lv ← evalCExpr l env
    let rv ← evalCExpr r env
    .ok (.bool (jsStrictEq lv rv))
  | .bin .neq l r, env => do
    let lv ← evalCExpr l env
    let rv ← evalCExpr r env
    .ok (.bool (!jsStrictEq lv rv))
  | .bin .gt l r, env => do
    let lv ← evalCExpr l env
    let rv ← evalCExpr r env
    .ok (.bool (jsLt rv lv))
  | .bin .gte l r, env => do
    let lv ← evalCExpr l env
    let rv ← evalCExpr r env
    .ok (.bool (jsLe rv lv))
  | .bin .lt l r, env => do
    let lv ← evalCExpr l env
    let rv ← evalCExpr r env
    .ok (.bool (jsLt lv rv))
  | .bin .lte l r, env => do
    let lv ← evalCExpr l env
    let rv ← evalCExpr r env
    .ok (.bool (jsLe lv rv))

/-- The iteration of an `eachS` block: one body run per element in order,
with the item and (0-based) index bound for the body. -/
def eachGo (child : List Stmt → Env → Except RtErr (List Char))
    (itemName indexName : List Char) (body : List Stmt) (env : Env) :
    List JValue → Nat → Except RtErr (List Char)
  | [], _ => .ok []
  | x :: xs, i => do
    let out ← child body ((itemName, x) :: (indexName, .num i) :: env)
    let rest ← eachGo child itemName indexName body env xs (i + 1)
    .ok (out ++ rest)

/-- One pass over a statement list, with `child` evaluating nested blocks
(`evalN` below ties the knot, decreasing fuel per nesting level). -/
def evalList (child : List Stmt → Env → Except RtErr (List Char)) :
    List Stmt → Env → Except RtErr (List Char)
  | [], _ => .ok []
  | s :: rest, env => do
    let out ← (match s with
      | .pushLit t => .ok t
      | .pushEscaped e => (evalCExpr e env).map escapeHtml
      | .pushRaw e => (evalCExpr e env).map jsString
      | .ifS c body => do
        let cv ← evalCExpr c env
        if truthy cv then child body env else .ok []
      | .eachS itemsE itemsName itemName indexName body => do
        let v ← evalCExpr itemsE env
        match v with
        | .arr xs =>
          eachGo child itemName indexName body ((itemsName, .arr xs) :: env) xs 0
        | _ => .ok [])
    let out2 ← evalList child rest env
    .ok (out ++ out2)

def evalN : Nat → List Stmt → Env → Except RtErr (List Char)
  | 0, _, _ => .error .fuelErr
  | fuel + 1, stmts, env => evalList (evalN fuel) stmts env

mutual
def stmtDepth : Stmt → Nat
  | .ifS _ b => stmtsDepth b + 1
  | .eachS _ _ _ _ b => stmtsDepth b + 1
  | _ => 0

def stmtsDepth : List Stmt → Nat
  | [] => 0
  | s :: rest => Nat.max (stmtDepth s) (stmtsDepth rest)
end

/-- Invocation of the compiled artifact on a context: the generated
function starts with `output = []` and the environment holding only its
`ctx` parameter, and returns `output.join('')`. -/
def invoke (a : List Stmt) (ctx : JValue) : Except RtErr (List Char) :=
  evalN (stmtsDepth a + 1) a [(cs "ctx", ctx)]

/-! ## Pipeline (src/index.js `Jframe.compile`) -/

/-- `Jframe.compile`: tokenize, parse, generate. -/
def compileTemplate (g : Nat → List Char) (template : List Char) :
    Except String (List Stmt) := do
  compileAst g (← parse (← tokenize template))

/-- Compile and invoke: the outer `Except` is a compilation failure, the
inner one a runtime exception of the artifact. -/
def runTemplate (g : Nat → List Char) (template : List Char) (ctx : JValue) :
    Except String (Except RtErr (List Char)) :=
  (compileTemplate g template).map (fun a => invoke a ctx)

/-- A concrete loop-id supply standing in for the source's
`Math.random()` draws: distinct ids of identifier characters. -/
def supplyA (n : Nat) : List Char := List.replicate (n + 1) 'a'

/-- A second concrete supply, disjoint from `supplyA`. -/
def supplyB (n : Nat) : List Char := List.replicate (n + 1) 'b'

/-! ## Observable determinism apparatus

The source draws each loop id from `Math.random().toString(36).substr(2, 9)`,
a run of identifier characters, distinct per draw.  The definitions below
state when two id supplies are interchangeable: a fragment condition on
the template's expressions under which the embedding models the generated
JS exactly, and a correspondence between the artifacts generated from the
same AST by two supplies. -/

/-- Shape of an id the source's draw can produce: a non-empty run of
identifier characters. -/
def idOk (s : List Char) : Bool :=
  !s.isEmpty && s.all isIdentChar

/-- The fragment of template expressions on which the embedding is an
exact model of the generated JS: a plain dotted path matched by none of
the complex-expression patterns (compiled to a `__get(ctx, ...)` call),
the whole-expression `this`, a `this.`-rooted path (rewritten to the loop
item binding, or to `ctx`, before any free identifier could be emitted),
the standalone `@index` substitution, or an integer literal.  Every raw
text these compile to is rooted in `ctx` or in a generated loop binding,
or is a literal, so its evaluation never touches the remaining names of
the generated function's scope (`items_<id>`, `output`, `__escape`,
`__get`, JS globals) and never exercises a JS form outside the modelled
`validateJsExpr`. -/
def fragTxt (e : List Char) : Bool :=
  (isValidPath e && !isComplexExpression e) || e == cs "this" ||
  ((cs "this.").isPrefixOf e && isValidPath (e.drop 5)) ||
  e == cs "@index" || isIntLit e

/-- The comparison-operand fragment: a quoted string or integer literal
(emitted verbatim), or a `fragTxt` form; a `this.`-rooted operand is
restricted to the non-complex shape, because a complex operand reaches
`_compileComplexExpression` directly, without the `this.` pre-rewrite of
`_generateAccessCode`. -/
def okOperand (o : List Char) : Bool :=
  ((o.head? = some '\x27' && o.getLast? = some '\x27') ||
   (o.head? = some '\x22' && o.getLast? = some '\x22')) ||
  isIntLit o ||
  (isValidPath o && !isComplexExpression o) ||
  o == cs "this" ||
  ((cs "this.").isPrefixOf o && isValidPath (o.drop 5) && !isComplexExpression o) ||
  o == cs "@index"

/-- An If condition within the fragment: either a comparison whose two
operand texts (after the double trimming the compiler applies) are in the
operand fragment, or a plain condition in the expression fragment. -/
def okCond (c : List Char) : Bool :=
  match matchComparison (trimL c) with
  | some (_, l, r) => okOperand (trimL (trimL l)) && okOperand (trimL (trimL r))
  | none => fragTxt (trimL c)

mutual
/-- Every expression of a parsed template lies in the fragment. -/
def okNode : Node → Bool
  | .text _ => true
  | .variable e => fragTxt e
  | .rawVariable e => fragTxt e
  | .ifN c kids => okCond c && okNodes kids
  | .eachN it kids => fragTxt it && okNodes kids
  | .root kids => okNodes kids

def okNodes : List Node → Bool
  | [] => true
  | n :: ns => okNode n && okNodes ns
end

/-- The loop-context stack the generator builds for supply `g` at the
generation-order counters `ks` (innermost first). -/
def mkLc (g : Nat → List Char) : List Nat → Option LoopCtx
  | [] => none
  | k :: ks =>
    some (.mk (cs "item_" ++ g k) (cs "index_" ++ g k) (mkLc g ks))

/-- The runtime environment of the artifact of supply `g` at loop stack
`L` (innermost first): each entry carries the loop counter, the evaluated
items array, the current item and the current 0-based index, matching the
`var items_k`, `var item_k` and `var index_k` bindings in scope there. -/
def mkEnv (g : Nat → List Char) (c : JValue) :
    List (Nat × JValue × JValue × Nat) → Env
  | [] => [(cs "ctx", c)]
  | (k, vs, x, i) :: L =>
    (cs "item_" ++ g k, x) :: (cs "index_" ++ g k, JValue.num i) ::
      (cs "items_" ++ g k, vs) :: mkEnv g c L

/-- Corresponding raw expression texts of the two artifacts at loop stack
`ks`.  Each form the compiler emits from the fragment appears: the bare
`ctx` parameter, a `ctx`-rooted member chain, an integer literal, the
innermost item or index binding, or an item-rooted member chain with a
shared property path. -/
inductive TRel (gA gB : Nat → List Char) : List Nat → List Char → List Char → Prop where
  | ctx0 (ks : List Nat) : TRel gA gB ks (cs "ctx") (cs "ctx")
  | ctxDot (ks : List Nat) (p : List Char) :
      TRel gA gB ks (cs "ctx." ++ p) (cs "ctx." ++ p)
  | intL (ks : List Nat) (s : List Char) (h : isIntLit s = true) :
      TRel gA gB ks s s
  | item (k : Nat) (ks : List Nat) :
      TRel gA gB (k :: ks) (cs "item_" ++ gA k) (cs "item_" ++ gB k)
  | index (k : Nat) (ks : List Nat) :
      TRel gA gB (k :: ks) (cs "index_" ++ gA k) (cs "index_" ++ gB k)
  | itemDot (k : Nat) (ks : List Nat) (p : List Char) :
      TRel gA gB (k :: ks) (cs "item_" ++ gA k ++ '.' :: p)
        (cs "item_" ++ gB k ++ '.' :: p)

/-- Corresponding compiled expressions of the two artifacts. -/
inductive CRel (gA gB : Nat → List Char) (ks : List Nat) : CExpr → CExpr → Prop where
  | js {tA tB : List Char} : TRel gA gB ks tA tB →
      CRel gA gB ks (.js tA) (.js tB)
  | get (p : List Char) : CRel gA gB ks (.get p) (.get p)
  | strLit (s : List Char) : CRel gA gB ks (.strLit s) (.strLit s)
  | numLit (s : List Char) : CRel gA gB ks (.numLit s) (.numLit s)
  | bin {lA lB rA rB : CExpr} (op : BinOp) :
      CRel gA gB ks lA lB → CRel gA gB ks rA rB →
      CRel gA gB ks (.bin op lA rA) (.bin op lB rB)
  | truthy {eA eB : CExpr} : CRel gA gB ks eA eB →
      CRel gA gB ks (.truthy eA) (.truthy eB)

/-- Corresponding generated statement lists of the two artifacts at loop
stack `ks`: equal shapes, related expressions, and each `eachS` block
introducing the two supplies' bindings for the same counter. -/
inductive SRels (gA gB : Nat → List Char) : List Nat → List Stmt → List Stmt → Prop where
  | nil (ks : List Nat) : SRels gA gB ks [] []
  | lit {ks : List Nat} {rA rB : List Stmt} (t : List Char) :
      SRels gA gB ks rA rB →
      SRels gA gB ks (.pushLit t :: rA) (.pushLit t :: rB)
  | esc {ks : List Nat} {eA eB : CExpr} {rA rB : List Stmt} :
      CRel gA gB ks eA eB → SRels gA gB ks rA rB →
      SRels gA gB ks (.pushEscaped eA :: rA) (.pushEscaped eB :: rB)
  | raw {ks : List Nat} {eA eB : CExpr} {rA rB : List Stmt} :
      CRel gA gB ks eA eB → SRels gA gB ks rA rB →
      SRels gA gB ks (.pushRaw eA :: rA) (.pushRaw eB :: rB)
  | ifs {ks : List Nat} {cA cB : CExpr} {bA bB rA rB : List Stmt} :
      CRel gA gB ks cA cB → SRels gA gB ks bA bB → SRels gA gB ks rA rB →
      SRels gA gB ks (.ifS cA bA :: rA) (.ifS cB bB :: rB)
  | each {ks : List Nat} {iA iB : CExpr} {bA bB rA rB : List Stmt} (k : Nat) :
      CRel gA gB ks iA iB → SRels gA gB (k :: ks) bA bB → SRels gA gB ks rA rB →
      SRels gA gB ks
        (.eachS iA (cs "items_" ++ gA k) (cs "item_" ++ gA k)
          (cs "index_" ++ gA k) bA :: rA)
        (.eachS iB (cs "items_" ++ gB k) (cs "item_" ++ gB k)
          (cs "index_" ++ gB k) bB :: rB)

/-- Agreement of two fallible results: failure together (the embedded
messages may mention supply-dependent names), or success with related
payloads. -/
def exceptAgree {α β : Type} (r : α → β → Prop) :
    Except String α → Except String β → Prop
  | .error _, .error _ => True
  | .ok a, .ok b => r a b
  | _, _ => False

/-! ## Generic list lemmas used by several claims -/

theorem dropWhile_append_of_all {p : Char → Bool} :
    ∀ {a b : List Char}, (∀ c ∈ a, p c = true) →
      (a ++ b).dropWhile p = b.dropWhile p
  | [], _, _ => rfl
  | c :: a, b, h => by
    have hc : p c = true := h c (by simp)
    simp only [List.cons_append, List.dropWhile_cons, hc, if_true]
    exact dropWhile_append_of_all (fun x hx => h x (by simp [hx]))

theorem dropWhile_eq_self_of_none {p : Char → Bool} :
    ∀ {a : List Char}, (∀ c ∈ a, p c = false) → a.dropWhile p = a
  | [], _ => rfl
  | c :: a, h => by
    have hc : p c = false := h c (by simp)
    simp [List.dropWhile_cons, hc]

theorem takeWhile_append_of_all {p : Char → Bool} :
    ∀ {a b : List Char}, (∀ c ∈ a, p c = true) →
      (a ++ b).takeWhile p = a ++ b.takeWhile p
  | [], _, _ => rfl
  | c :: a, b, h => by
    have hc : p c = true := h c (by simp)
    simp only [List.cons_append, List.takeWhile_cons, hc, if_true, List.cons_inj_right]
    exact takeWhile_append_of_all (fun x hx => h x (by simp [hx]))

/-- `trimL` fixes a list with no whitespace characters. -/
theorem trimL_of_no_ws {a : List Char} (h : ∀ c ∈ a, isWsChar c = false) :
    trimL a = a := by
  unfold trimL
  rw [dropWhile_eq_self_of_none h,
      dropWhile_eq_self_of_none (fun c hc => h c (List.mem_reverse.mp hc)),
      List.reverse_reverse]

theorem trimL_eq_nil_of_all_ws {a : List Char} (h : ∀ c ∈ a, isWsChar c = true) :
    trimL a = [] := by
  unfold trimL
  rw [List.dropWhile_eq_nil_iff.mpr (fun x hx => h x hx)]
  rfl

theorem isPrefixOf_append_self (l r : List Char) : l.isPrefixOf (l ++ r) = true :=
  List.isPrefixOf_iff_prefix.mpr (List.prefix_append l r)

theorem exists_append_of_isPrefixOf {p s : List Char}
    (h : p.isPrefixOf s = true) : ∃ t, s = p ++ t := by
  obtain ⟨t, ht⟩ := List.isPrefixOf_iff_prefix.mp h
  exact ⟨t, ht.symm⟩

theorem isPrefixOf_cons_of_ne {c d : Char} (p s : List Char) (h : c ≠ d) :
    (c :: p).isPrefixOf (d :: s) = false := by
  simp [List.isPrefixOf_cons₂, h]

/-! ### findSub lemmas -/

theorem findSub_append_left (pat tail : List Char) :
    findSub pat (pat ++ tail) = some 0 := by
  match pat, tail with
  | [], [] => rfl
  | [], c :: tail => simp [findSub]
  | c :: pat, tail =>
    simp [findSub, isPrefixOf_append_self (c :: pat) tail]

theorem findSub_cons_of_ne_head {h : Char} {pat : List Char} {c : Char}
    (s : List Char) (hne : c ≠ h) :
    findSub (h :: pat) (c :: s) = (findSub (h :: pat) s).map (· + 1) := by
  simp [findSub, isPrefixOf_cons_of_ne pat s (Ne.symm hne)]

theorem findSub_append_of_ne_head {h : Char} {pat : List Char} :
    ∀ (content s : List Char), (∀ c ∈ content, c ≠ h) →
      findSub (h :: pat) (content ++ s) =
        (findSub (h :: pat) s).map (· + content.length)
  | [], s, _ => by cases hf : findSub (h :: pat) s <;> simp [hf]
  | c :: content, s, hc => by
    rw [List.cons_append,
        findSub_cons_of_ne_head (content ++ s) (hc c (by simp)),
        findSub_append_of_ne_head content s (fun x hx => hc x (by simp [hx]))]
    cases findSub (h :: pat) s <;> simp <;> omega

/-- First occurrence of the close marker after content free of its head
character: exactly at the end of the content. -/
theorem findSub_content_marker {h : Char} {pat : List Char}
    (content tail : List Char) (hc : ∀ c ∈ content, c ≠ h) :
    findSub (h :: pat) (content ++ ((h :: pat) ++ tail)) = some content.length := by
  rw [findSub_append_of_ne_head content _ hc, findSub_append_left]
  simp

/-! ### containsSub lemmas -/

theorem head_mem_of_containsSub {h : Char} {pat : List Char} :
    ∀ {s : List Char}, containsSub (h :: pat) s = true → h ∈ s := by
  intro s
  induction s with
  | nil => intro hs; simp [containsSub, findSub] at hs
  | cons c rest ih =>
    intro hs
    by_cases hch : c = h
    · simp [hch]
    · rw [containsSub, findSub_cons_of_ne_head rest hch] at hs
      have : containsSub (h :: pat) rest = true := by
        unfold containsSub
        cases hf : findSub (h :: pat) rest with
        | none => rw [hf] at hs; simp at hs
        | some i => simp
      exact List.mem_cons_of_mem _ (ih this)

theorem containsSub_eq_false_of_no_head {h : Char} {pat s : List Char}
    (hs : ∀ c ∈ s, c ≠ h) : containsSub (h :: pat) s = false := by
  cases hc : containsSub (h :: pat) s with
  | false => rfl
  | true => exact absurd rfl (hs h (head_mem_of_containsSub hc))

/-! ### splitDot lemmas -/

theorem splitDot_ne_nil : ∀ (p : List Char), splitDot p ≠ []
  | [] => by simp [splitDot]
  | c :: rest => by
    unfold splitDot
    by_cases h : c = '.'
    · simp [h]
    · simp only [h, if_false]
      cases splitDot rest <;> simp

theorem splitDot_cons_ne (c : Char) (rest : List Char) (hc : c ≠ '.') :
    splitDot (c :: rest) =
      match splitDot rest with
      | [] => [[c]]
      | seg :: segs => (c :: seg) :: segs := by
  simp [splitDot, hc]

theorem splitDot_append_cons (a p : List Char) (ha : ∀ c ∈ a, c ≠ '.') :
    splitDot (a ++ '.' :: p) = a :: splitDot p := by
  induction a with
  | nil => simp [splitDot]
  | cons c a ih =>
    have hc : c ≠ '.' := ha c (by simp)
    rw [List.cons_append, splitDot_cons_ne c _ hc,
        ih (fun x hx => ha x (by simp [hx]))]

/-- Characters of a path accepted by the dotted-identifier regex are
identifier characters or dots. -/
theorem mem_splitDot_chars :
    ∀ (p : List Char) (c : Char), c ∈ p →
      c = '.' ∨ ∃ seg ∈ splitDot p, c ∈ seg := by
  intro p
  induction p with
  | nil => intro c hc; simp at hc
  | cons d rest ih =>
    intro c hc
    by_cases hd : d = '.'
    · subst hd
      rcases List.mem_cons.mp hc with hcd | hcr
      · exact Or.inl hcd
      · rcases ih c hcr with h | ⟨seg, hseg, hcs⟩
        · exact Or.inl h
        · exact Or.inr ⟨seg, by simp [splitDot, hseg], hcs⟩
    · rcases hsd : splitDot rest with _ | ⟨seg0, segs⟩
      · exact absurd hsd (splitDot_ne_nil rest)
      · rcases List.mem_cons.mp hc with hcd | hcr
        · refine Or.inr ⟨d :: seg0, ?_, by simp [hcd]⟩
          simp [splitDot, hd, hsd]
        · rcases ih c hcr with h | ⟨seg, hseg, hcs⟩
          · exact Or.inl h
          · rw [hsd] at hseg
            rcases List.mem_cons.mp hseg with h0 | hs
            · refine Or.inr ⟨d :: seg0, ?_, ?_⟩
              · simp [splitDot, hd, hsd]
              · subst h0; exact List.mem_cons_of_mem _ hcs
            · refine Or.inr ⟨seg, ?_, hcs⟩
              simp [splitDot, hd, hsd, hs]

theorem chars_of_isValidPath {p : List Char} (hp : isValidPath p = true) :
    ∀ c ∈ p, isIdentChar c = true ∨ c = '.' := by
  intro c hc
  rcases mem_splitDot_chars p c hc with h | ⟨seg, hseg, hcs⟩
  · exact Or.inr h
  · left
    have hsegOk : isIdentSeg seg = true := by
      have := List.all_eq_true.mp hp seg hseg
      exact this
    cases seg with
    | nil => simp at hcs
    | cons s0 srest =>
      simp only [isIdentSeg, Bool.and_eq_true] at hsegOk
      rcases List.mem_cons.mp hcs with h0 | hr
      · subst h0
        unfold isIdentChar
        simp [hsegOk.1]
      · exact List.all_eq_true.mp hsegOk.2 c hr

/-! ### trimL lemmas -/

theorem all_ws_of_trimL_eq_nil {a : List Char} (h : trimL a = []) :
    ∀ c ∈ a, isWsChar c = true := by
  unfold trimL at h
  rw [List.reverse_eq_nil_iff] at h
  have h2 : ∀ x ∈ (a.dropWhile isWsChar).reverse, isWsChar x = true :=
    List.dropWhile_eq_nil_iff.mp h
  have h3 : ∀ x ∈ a.dropWhile isWsChar, isWsChar x = true := by
    intro x hx; exact h2 x (List.mem_reverse.mpr hx)
  intro c hc
  rw [← List.takeWhile_append_dropWhile isWsChar a] at hc
  rcases List.mem_append.mp hc with ht | hd
  · exact List.mem_takeWhile_imp ht
  · exact h3 c hd

theorem tokenizeGo_nil (fuel pos : Nat) (buf : List Char) :
    tokenizeGo (fuel + 1) pos [] buf =
      .ok (if buf = [] then [] else [Token.text buf]) := rfl

theorem tokenizeGo_nil_of_pos (fuel pos : Nat) (buf : List Char) (h : fuel ≠ 0) :
    tokenizeGo fuel pos [] buf =
      .ok (if buf = [] then [] else [Token.text buf]) := by
  cases fuel with
  | zero => exact absurd rfl h
  | succ f => rfl

/-- One scanning step on a triple-brace marker with an empty text buffer. -/
theorem tokenizeGo_open3 (fuel pos : Nat) (inner : List Char) :
    tokenizeGo (fuel + 1) pos ('\x7b' :: '\x7b' :: '\x7b' :: inner) [] =
      (scanMarker (fun p s2 => tokenizeGo fuel p s2 []) pos true inner).map
        (fun ts => ts) := rfl

/-- One scanning step on a double-brace marker (no third opening brace)
with an empty text buffer. -/
theorem tokenizeGo_open2 (fuel pos : Nat) (inner : List Char)
    (h : inner.head? ≠ some '\x7b') :
    tokenizeGo (fuel + 1) pos ('\x7b' :: '\x7b' :: inner) [] =
      (scanMarker (fun p s2 => tokenizeGo fuel p s2 []) pos false inner).map
        (fun ts => ts) := by
  have hraw : ((inner.head? == some '\x7b') : Bool) = false := by
    cases hh : inner.head? with
    | none => rfl
    | some c =>
      have hc : c ≠ '\x7b' := fun hcc => h (by rw [hh, hcc])
      simp [hc]
  have hexp : tokenizeGo (fuel + 1) pos ('\x7b' :: '\x7b' :: inner) [] =
      (scanMarker (fun p s2 => tokenizeGo fuel p s2 []) pos
        (inner.head? == some '\x7b')
        (if (inner.head? == some '\x7b') = true then inner.drop 1 else inner)).map
        (fun ts => ts) := rfl
  rw [hexp, hraw]
  rfl

/-- The raw-marker scan step with the close marker found right after
brace-free content. -/
theorem scanMarker_closed3 (next : Nat → List Char → Except String (List Token))
    (pos : Nat) (content : List Char) (hc : ∀ c ∈ content, c ≠ '\x7d') :
    scanMarker next pos true (content ++ cs "\x7d\x7d\x7d") =
      (do
        let ts ← processExpression (trimL content) true
        let tks ← next (pos + 3 + content.length + 3) []
        Except.ok (ts ++ tks)) := by
  have hfind : findSub (cs "\x7d\x7d\x7d") (content ++ cs "\x7d\x7d\x7d") =
      some content.length := by
    have h := @findSub_content_marker '\x7d' (cs "\x7d\x7d") content [] hc
    simpa using h
  have hdrop : (content ++ cs "\x7d\x7d\x7d").drop (content.length + 3) = [] := by
    rw [show content.length + 3 = (content ++ cs "\x7d\x7d\x7d").length by simp [cs]]
    exact List.drop_length _
  show (match findSub (cs "\x7d\x7d\x7d") (content ++ cs "\x7d\x7d\x7d") with
    | none => Except.error ("Unclosed expression at position " ++ toString pos)
    | some i => do
      let ts ← processExpression (trimL ((content ++ cs "\x7d\x7d\x7d").take i)) true
      let tks ← next (pos + 3 + i + 3) ((content ++ cs "\x7d\x7d\x7d").drop (i + 3))
      Except.ok (ts ++ tks)) = _
  rw [hfind]
  simp only [List.take_left, hdrop]

/-- The normal-marker scan step with the close marker found right after
brace-free content. -/
theorem scanMarker_closed2 (next : Nat → List Char → Except String (List Token))
    (pos : Nat) (content : List Char) (hc : ∀ c ∈ content, c ≠ '\x7d') :
    scanMarker next pos false (content ++ cs "\x7d\x7d") =
      (do
        let ts ← processExpression (trimL content) false
        let tks ← next (pos + 2 + content.length + 2) []
        Except.ok (ts ++ tks)) := by
  have hfind : findSub (cs "\x7d\x7d") (content ++ cs "\x7d\x7d") =
      some content.length := by
    have h := @findSub_content_marker '\x7d' (cs "\x7d") content [] hc
    simpa using h
  have hdrop : (content ++ cs "\x7d\x7d").drop (content.length + 2) = [] := by
    rw [show content.length + 2 = (content ++ cs "\x7d\x7d").length by simp [cs]]
    exact List.drop_length _
  show (match findSub (cs "\x7d\x7d") (content ++ cs "\x7d\x7d") with
    | none => Except.error ("Unclosed expression at position " ++ toString pos)
    | some i => do
      let ts ← processExpression (trimL ((content ++ cs "\x7d\x7d").take i)) false
      let tks ← next (pos + 2 + i + 2) ((content ++ cs "\x7d\x7d").drop (i + 2))
      Except.ok (ts ++ tks)) = _
  rw [hfind]
  simp only [List.take_left, hdrop]

/-- Scanning a template that is one triple-brace marker around content
free of closing braces. -/
theorem tokenize_triple (content : List Char) (hc : ∀ c ∈ content, c ≠ '\x7d') :
    tokenize ('\x7b' :: '\x7b' :: '\x7b' :: (content ++ cs "\x7d\x7d\x7d")) =
      .ok [Token.raw (trimL content)] := by
  unfold tokenize
  rw [if_neg (by simp)]
  have hlen : ('\x7b' :: '\x7b' :: '\x7b' :: (content ++ cs "\x7d\x7d\x7d")).length + 1 =
      (content.length + 6) + 1 := by simp [cs]
  rw [hlen, tokenizeGo_open3,
      scanMarker_closed3 (fun p s2 => tokenizeGo (content.length + 6) p s2 []) 0 content hc,
      tokenizeGo_nil_of_pos (content.length + 6) _ [] (by omega)]
  have hp : processExpression (trimL content) true = .ok [Token.raw (trimL content)] := rfl
  rw [hp]
  rfl

/-- Scanning a template that is one double-brace marker around content
free of closing braces and not starting with an opening brace. -/
theorem tokenize_double (content : List Char) (ts : List Token)
    (hc : ∀ c ∈ content, c ≠ '\x7d') (hh : content.head? ≠ some '\x7b')
    (hp : processExpression (trimL content) false = .ok ts) :
    tokenize ('\x7b' :: '\x7b' :: (content ++ cs "\x7d\x7d")) = .ok ts := by
  unfold tokenize
  rw [if_neg (by simp)]
  have hlen : ('\x7b' :: '\x7b' :: (content ++ cs "\x7d\x7d")).length + 1 =
      (content.length + 4) + 1 := by simp [cs]
  have hh2 : (content ++ cs "\x7d\x7d").head? ≠ some '\x7b' := by
    cases content with
    | nil => simp [cs]
    | cons c t =>
      simpa using hh
  rw [hlen, tokenizeGo_open2 _ _ _ hh2,
      scanMarker_closed2 (fun p s2 => tokenizeGo (content.length + 4) p s2 []) 0 content hc,
      tokenizeGo_nil_of_pos (content.length + 4) _ [] (by omega), hp]
  show Except.ok (ts ++ ([] : List Token)) = Except.ok ts
  rw [List.append_nil]

/-! ## Claim theorems -/

/-- C1 (counterexample): compiling `\x7b\x7bthis.a.b\x7d\x7d` succeeds, but invoking
the artifact on the empty context `\x7b\x7d` raises a `TypeError` — the generated
code is the direct member access `ctx.a.b`, not the safe nested-path
lookup, so a missing intermediate key of a `this.<path>` expression makes
the invocation raise, contrary to the claim. -/
theorem C1_counterexample :
    runTemplate supplyA (cs "\x7b\x7bthis.a.b\x7d\x7d") (JValue.obj []) =
      .ok (.error .typeErr) := by rfl

/-- C4 (counterexample): `a.length` matches the dotted identifier-path
regex, yet the compiled artifact does not route it through the safe
lookup (it is classified complex by the `.length` pattern and compiled to
the direct expression `a.length`); invoking on the empty context raises a
`ReferenceError` instead of rendering the empty string. -/
theorem C4_counterexample :
    isValidPath (cs "a.length") = true ∧
    runTemplate supplyA (cs "\x7b\x7ba.length\x7d\x7d") (JValue.obj []) =
      .ok (.error .refErr) := ⟨rfl, by rfl⟩

/-- C5 (counterexample): a RawVariable does not apply the null-to-empty
rule: `\x7b\x7b\x7bx\x7d\x7d\x7d` invoked with the empty context appends
`String(undefined)`, i.e. the text `undefined`, not the empty string. -/
theorem C5_counterexample :
    runTemplate supplyA (cs "\x7b\x7b\x7bx\x7d\x7d\x7d") (JValue.obj []) =
      .ok (.ok (cs "undefined")) := by rfl

/-- C8 (counterexample): scanning the marker `\x7b\x7b#if \x7d\x7d` does not fail with
"If directive requires a condition" — the inner content is trimmed to
`#if`, which no longer starts with `#if `, so the scanner emits a plain
Variable token for it. -/
theorem C8_counterexample :
    tokenize (cs "\x7b\x7b#if \x7d\x7d") = .ok [Token.var (cs "#if")] := by rfl

/-- C9 (counterexample): compiling the same template twice (two draws of
the loop-id supply, both injective identifier ids as the source's
`Math.random` produces) yields artifacts that disagree on a context whose
data mentions one artifact's generated index binding name: `@index`
inside a `this.`-path is substituted textually, so the property name read
from the context depends on the random loop id. -/
theorem C9_counterexample :
    runTemplate supplyA
        (cs "\x7b\x7b#each xs\x7d\x7d\x7b\x7bthis.a.@index\x7d\x7d\x7b\x7b/each\x7d\x7d")
        (JValue.obj [(cs "xs",
          JValue.arr [JValue.obj [(cs "a",
            JValue.obj [(cs "index_a", JValue.str (cs "X"))])]])]) =
      .ok (.ok (cs "X")) ∧
    runTemplate supplyB
        (cs "\x7b\x7b#each xs\x7d\x7d\x7b\x7bthis.a.@index\x7d\x7d\x7b\x7b/each\x7d\x7d")
        (JValue.obj [(cs "xs",
          JValue.arr [JValue.obj [(cs "a",
            JValue.obj [(cs "index_a", JValue.str (cs "X"))])]])]) =
      .ok (.ok []) := ⟨by rfl, by rfl⟩

/-- C8 (amended): the empty-condition error is unreachable from the
scanner: the inner content of a double marker is trimmed before
classification, so trimmed content can never both start with `#if ` and
have an empty remainder; `\x7b\x7b#if \x7d\x7d` instead scans to the Variable token
`#if`, and the failure surfaces later, at code generation, as
"Invalid variable expression: #if". -/
theorem C8_amended :
    (∀ e : List Char, trimL e = e →
      processExpression e false ≠ Except.error "If directive requires a condition") ∧
    compileTemplate supplyA (cs "\x7b\x7b#if \x7d\x7d") =
      .error "Invalid variable expression: #if" := by
  constructor
  · intro e ht
    unfold processExpression
    simp only [Bool.false_eq_true, if_false]
    split
    · -- `#if `-prefixed content: the remainder cannot trim to empty
      next hpre =>
      obtain ⟨rest, hrest⟩ := exists_append_of_isPrefixOf hpre
      split
      · next hcond =>
        exfalso
        rw [hrest, List.drop_left' (by rfl)] at hcond
        -- every character of `rest` is whitespace
        have hws : ∀ c ∈ rest, isWsChar c = true := all_ws_of_trimL_eq_nil hcond
        -- hence `trimL e` strips the trailing blank of `#if ` as well
        have h1 : List.dropWhile isWsChar (cs "#if " ++ rest) = cs "#if " ++ rest := by
          rfl
        have h2 : (cs "#if " ++ rest).reverse = rest.reverse ++ cs " fi#" := by
          rw [List.reverse_append]; rfl
        have h3 : List.dropWhile isWsChar (rest.reverse ++ cs " fi#") = cs "fi#" := by
          rw [dropWhile_append_of_all (fun c hcm => hws c (List.mem_reverse.mp hcm))]
          rfl
        have htrim : trimL e = cs "#if" := by
          rw [hrest]; unfold trimL; rw [h1, h2, h3]; rfl
        rw [ht, hrest] at htrim
        have hlen := congrArg List.length htrim
        rw [List.length_append, show (cs "#if ").length = 4 from rfl,
            show (cs "#if").length = 3 from rfl] at hlen
        omega
      · simp
    · next hpre =>
      split
      · split
        · intro h
          exact absurd (congrArg String.data (Except.error.inj h)) (by decide)
        · simp
      · split
        · simp
        · split
          · simp
          · split
            · intro h
              have hd := congrArg String.data (Except.error.inj h)
              rw [String.data_append] at hd
              have hh := congrArg List.head? hd
              simp [cs] at hh
            · simp
  · rfl

theorem C8_amended_witness :
    processExpression (cs "#if") false ≠
      Except.error "If directive requires a condition" :=
  C8_amended.1 (cs "#if") rfl

/-- C10: a triple-delimited marker always scans to a RawVariable token
carrying the trimmed inner content — `_processExpression` returns it
before any directive classification, so `#if `/`#each `/`/`-leading
content inside triple braces is never treated as a directive and never
raises a directive error; at the template level, any marker content free
of the closing-brace character scans to exactly that RawVariable token. -/
theorem C10_raw_marker_is_never_classified :
    (∀ e : List Char, processExpression e true = .ok [Token.raw e]) ∧
    (∀ content : List Char, (∀ c ∈ content, c ≠ '\x7d') →
      tokenize ('\x7b' :: '\x7b' :: '\x7b' :: (content ++ cs "\x7d\x7d\x7d")) =
        .ok [Token.raw (trimL content)]) := by
  constructor
  · intro e; rfl
  · intro content hc
    exact tokenize_triple content hc

/-! ### Parser lemmas for C7 -/

/-- Tokens that the sibling parser consumes as leaf nodes. -/
def isAtomTok : Token → Bool
  | .text _ => true
  | .var _ => true
  | .raw _ => true
  | _ => false

def atomNode : Token → Node
  | .text v => .text v
  | .var e => .variable e
  | .raw e => .rawVariable e
  | _ => .text []

theorem parseSibF_ifStart (fuel : Nat) (c : List Char) (rest : List Token) :
    parseSibF (fuel + 1) (Token.ifStart c :: rest) = (do
      let (kids, r) ← parseSibF fuel rest
      match r with
      | .ifEnd :: r2 => do
        let (ns, r3) ← parseSibF fuel r2
        Except.ok (Node.ifN c kids :: ns, r3)
      | _ => Except.error "Unclosed \x7b\x7b#if\x7d\x7d directive") := rfl

theorem parseSibF_eachStart (fuel : Nat) (e : List Char) (rest : List Token) :
    parseSibF (fuel + 1) (Token.eachStart e :: rest) = (do
      let (kids, r) ← parseSibF fuel rest
      match r with
      | .eachEnd :: r2 => do
        let (ns, r3) ← parseSibF fuel r2
        Except.ok (Node.eachN e kids :: ns, r3)
      | _ => Except.error "Unclosed \x7b\x7b#each\x7d\x7d directive") := rfl

/-- Consuming a run of leaf tokens: the sibling parser maps them to their
nodes, spending one unit of fuel each. -/
theorem parseSib_atoms :
    ∀ (body : List Token) (fuel : Nat) (rest : List Token),
      body.all isAtomTok = true → body.length < fuel →
      parseSibF fuel (body ++ rest) =
        (parseSibF (fuel - body.length) rest).map
          (fun p => (body.map atomNode ++ p.1, p.2)) := by
  intro body
  induction body with
  | nil =>
    intro fuel rest _ _
    simp only [List.nil_append, List.length_nil, Nat.sub_zero, List.map_nil]
    cases parseSibF fuel rest <;> rfl
  | cons t body ih =>
    intro fuel rest hall hlen
    have hta : isAtomTok t = true := List.all_eq_true.mp hall t (by simp)
    have hba : body.all isAtomTok = true := by
      apply List.all_eq_true.mpr
      intro x hx
      exact List.all_eq_true.mp hall x (by simp [hx])
    cases fuel with
    | zero => simp at hlen
    | succ f =>
      have hlen2 : body.length < f := by simp at hlen; omega
      have hsub : f + 1 - (body.length + 1) = f - body.length := by omega
      cases t with
      | text v =>
        show (do
          let (ns, r) ← parseSibF f (body ++ rest)
          Except.ok (Node.text v :: ns, r)) = _
        rw [ih f rest hba hlen2]
        simp only [List.length_cons, hsub, List.map_cons]
        cases parseSibF (f - body.length) rest <;> rfl
      | var e =>
        show (do
          let (ns, r) ← parseSibF f (body ++ rest)
          Except.ok (Node.variable e :: ns, r)) = _
        rw [ih f rest hba hlen2]
        simp only [List.length_cons, hsub, List.map_cons]
        cases parseSibF (f - body.length) rest <;> rfl
      | raw e =>
        show (do
          let (ns, r) ← parseSibF f (body ++ rest)
          Except.ok (Node.rawVariable e :: ns, r)) = _
        rw [ih f rest hba hlen2]
        simp only [List.length_cons, hsub, List.map_cons]
        cases parseSibF (f - body.length) rest <;> rfl
      | ifStart c => simp [isAtomTok] at hta
      | eachStart e => simp [isAtomTok] at hta
      | ifEnd => simp [isAtomTok] at hta
      | eachEnd => simp [isAtomTok] at hta

theorem parseSibF_nil_of_pos (fuel : Nat) (h : fuel ≠ 0) :
    parseSibF fuel [] = .ok ([], []) := by
  cases fuel with
  | zero => exact absurd rfl h
  | succ f => rfl

/-- C7: a block-open token whose children run to the end of the token
stream, or are terminated by a close token of the other kind, makes the
tree builder fail with the unclosed-directive error naming the open
directive; concretely, compiling `\x7b\x7b#if x\x7d\x7d` raises the unclosed-if error
and compiling `\x7b\x7b#each y\x7d\x7d` the unclosed-each error. -/
theorem C7_unclosed_blocks :
    (∀ (c : List Char) (body : List Token), body.all isAtomTok = true →
      parse (Token.ifStart c :: body) = .error "Unclosed \x7b\x7b#if\x7d\x7d directive")
  ∧ (∀ (c : List Char) (body : List Token), body.all isAtomTok = true →
      parse (Token.ifStart c :: (body ++ [Token.eachEnd])) =
        .error "Unclosed \x7b\x7b#if\x7d\x7d directive")
  ∧ (∀ (e : List Char) (body : List Token), body.all isAtomTok = true →
      parse (Token.eachStart e :: body) = .error "Unclosed \x7b\x7b#each\x7d\x7d directive")
  ∧ (∀ (e : List Char) (body : List Token), body.all isAtomTok = true →
      parse (Token.eachStart e :: (body ++ [Token.ifEnd])) =
        .error "Unclosed \x7b\x7b#each\x7d\x7d directive")
  ∧ compileTemplate supplyA (cs "\x7b\x7b#if x\x7d\x7d") =
      .error "Unclosed \x7b\x7b#if\x7d\x7d directive"
  ∧ compileTemplate supplyA (cs "\x7b\x7b#each y\x7d\x7d") =
      .error "Unclosed \x7b\x7b#each\x7d\x7d directive" := by
  refine ⟨?_, ?_, ?_, ?_, by rfl, by rfl⟩
  · intro c body hb
    unfold parse
    have hlen : (Token.ifStart c :: body).length + 1 = (body.length + 1) + 1 := by simp
    rw [hlen, parseSibF_ifStart]
    have hat := parseSib_atoms body (body.length + 1) [] hb (by omega)
    rw [List.append_nil, show body.length + 1 - body.length = 1 by omega,
        parseSibF_nil_of_pos 1 (by omega)] at hat
    rw [hat]
    rfl
  · intro c body hb
    unfold parse
    have hlen : (Token.ifStart c :: (body ++ [Token.eachEnd])).length + 1 =
        (body.length + 2) + 1 := by simp
    rw [hlen, parseSibF_ifStart]
    have hat := parseSib_atoms body (body.length + 2) [Token.eachEnd] hb (by omega)
    rw [show body.length + 2 - body.length = 2 by omega] at hat
    have h2 : parseSibF 2 [Token.eachEnd] = .ok ([], [Token.eachEnd]) := rfl
    rw [h2] at hat
    rw [hat]
    rfl
  · intro e body hb
    unfold parse
    have hlen : (Token.eachStart e :: body).length + 1 = (body.length + 1) + 1 := by simp
    rw [hlen, parseSibF_eachStart]
    have hat := parseSib_atoms body (body.length + 1) [] hb (by omega)
    rw [List.append_nil, show body.length + 1 - body.length = 1 by omega,
        parseSibF_nil_of_pos 1 (by omega)] at hat
    rw [hat]
    rfl
  · intro e body hb
    unfold parse
    have hlen : (Token.eachStart e :: (body ++ [Token.ifEnd])).length + 1 =
        (body.length + 2) + 1 := by simp
    rw [hlen, parseSibF_eachStart]
    have hat := parseSib_atoms body (body.length + 2) [Token.ifEnd] hb (by omega)
    rw [show body.length + 2 - body.length = 2 by omega] at hat
    have h2 : parseSibF 2 [Token.ifEnd] = .ok ([], [Token.ifEnd]) := rfl
    rw [h2] at hat
    rw [hat]
    rfl

theorem C7_unclosed_witness :
    parse [Token.ifStart (cs "x"), Token.text (cs "A")] =
      .error "Unclosed \x7b\x7b#if\x7d\x7d directive" :=
  C7_unclosed_blocks.1 (cs "x") [Token.text (cs "A")] rfl

/-- C6: an Each block whose items expression evaluates to a non-array
value emits nothing — the generated `Array.isArray` guard skips the loop
and no error is raised; concretely a string-valued or missing `items`
renders the block as the empty string. -/
theorem C6_non_array_each :
    (∀ (child : List Stmt → Env → Except RtErr (List Char)) (e : CExpr)
      (itemsName itemName indexName : List Char) (body : List Stmt)
      (env : Env) (v : JValue),
      evalCExpr e env = .ok v → (∀ xs, v ≠ JValue.arr xs) →
      evalList child [Stmt.eachS e itemsName itemName indexName body] env = .ok [])
  ∧ runTemplate supplyA (cs "\x7b\x7b#each items\x7d\x7dX\x7b\x7b/each\x7d\x7d")
      (JValue.obj [(cs "items", JValue.str (cs "abc"))]) = .ok (.ok [])
  ∧ runTemplate supplyA (cs "\x7b\x7b#each items\x7d\x7dX\x7b\x7b/each\x7d\x7d")
      (JValue.obj []) = .ok (.ok []) := by
  refine ⟨?_, by rfl, by rfl⟩
  intro child e itsn itn ixn body env v hv hna
  simp only [evalList, hv]
  cases v with
  | arr xs => exact absurd rfl (hna xs)
  | undef => rfl
  | null => rfl
  | bool b => rfl
  | num n => rfl
  | str s => rfl
  | obj fs => rfl

theorem C6_non_array_witness :
    evalList (evalN 0)
      [Stmt.eachS (CExpr.get (cs "items")) (cs "k") (cs "i") (cs "j") []]
      [(cs "ctx", JValue.obj [])] = .ok [] :=
  C6_non_array_each.1 (evalN 0) _ _ _ _ _ _ JValue.undef rfl
    (fun xs h => JValue.noConfusion h)

theorem C10_raw_marker_witness :
    tokenize ('\x7b' :: '\x7b' :: '\x7b' :: (cs "#if x" ++ cs "\x7d\x7d\x7d")) =
      .ok [Token.raw (trimL (cs "#if x"))] :=
  C10_raw_marker_is_never_classified.2 (cs "#if x") (by decide)

/-! ### C2: the `each` loop -/

/-- The loop body compiled from `\x7b\x7b@index\x7d\x7d:\x7b\x7bthis\x7d\x7d ` under the first
`supplyA` loop scope. -/
def c2Body : List Stmt :=
  [Stmt.pushEscaped (CExpr.js (cs "index_a")), Stmt.pushLit (cs ":"),
   Stmt.pushEscaped (CExpr.js (cs "item_a")), Stmt.pushLit (cs " ")]

/-- The expected rendering of the loop starting at index `i`. -/
def c2Expected : Nat → List JValue → List Char
  | _, [] => []
  | i, x :: xs =>
    (escapeHtml (.num i) ++ ':' :: (escapeHtml x ++ [' '])) ++ c2Expected (i + 1) xs

theorem c2_eachGo (xs : List JValue) :
    ∀ (i : Nat) (env : Env),
      eachGo (evalN 1) (cs "item_a") (cs "index_a") c2Body env xs i =
        .ok (c2Expected i xs) := by
  induction xs with
  | nil => intro i env; rfl
  | cons x xs ih =>
    intro i env
    show (do
      let out ← evalN 1 c2Body ((cs "item_a", x) :: (cs "index_a", JValue.num i) :: env)
      let rest ← eachGo (evalN 1) (cs "item_a") (cs "index_a") c2Body env xs (i + 1)
      Except.ok (out ++ rest)) = _
    have hbody : evalN 1 c2Body ((cs "item_a", x) :: (cs "index_a", JValue.num i) :: env) =
        .ok (escapeHtml (.num i) ++ ':' :: (escapeHtml x ++ [' '])) := rfl
    rw [hbody, ih (i + 1) env]
    rfl

/-- C2: an Each block over an array evaluates the items expression once
and renders the children once per element in order, `@index` resolving to
the innermost 0-based index binding and `this` to the innermost item
binding; the compiled form of the concrete template shows the bindings,
`@index` compiles to the literal `0` when no loop scope encloses it, and
the spec's concrete example renders `0:a 1:b 2:c `. -/
theorem C2_each_index_this :
    (∀ xs : List JValue,
      runTemplate supplyA
          (cs "\x7b\x7b#each items\x7d\x7d\x7b\x7b@index\x7d\x7d:\x7b\x7bthis\x7d\x7d \x7b\x7b/each\x7d\x7d")
          (JValue.obj [(cs "items", JValue.arr xs)]) =
        .ok (.ok (c2Expected 0 xs)))
  ∧ compileTemplate supplyA
      (cs "\x7b\x7b#each items\x7d\x7d\x7b\x7b@index\x7d\x7d:\x7b\x7bthis\x7d\x7d \x7b\x7b/each\x7d\x7d") =
      .ok [Stmt.eachS (CExpr.get (cs "items")) (cs "items_a") (cs "item_a")
        (cs "index_a") c2Body]
  ∧ compileComplexExpression (cs "@index") none = .ok (cs "0")
  ∧ runTemplate supplyA
      (cs "\x7b\x7b#each items\x7d\x7d\x7b\x7b@index\x7d\x7d:\x7b\x7bthis\x7d\x7d \x7b\x7b/each\x7d\x7d")
      (JValue.obj [(cs "items",
        JValue.arr [JValue.str (cs "a"), JValue.str (cs "b"), JValue.str (cs "c")])]) =
      .ok (.ok (cs "0:a 1:b 2:c ")) := by
  refine ⟨?_, by rfl, by rfl, by rfl⟩
  intro xs
  have hstep :
      runTemplate supplyA
          (cs "\x7b\x7b#each items\x7d\x7d\x7b\x7b@index\x7d\x7d:\x7b\x7bthis\x7d\x7d \x7b\x7b/each\x7d\x7d")
          (JValue.obj [(cs "items", JValue.arr xs)]) =
        Except.ok ((eachGo (evalN 1) (cs "item_a") (cs "index_a") c2Body
            [(cs "items_a", JValue.arr xs),
             (cs "ctx", JValue.obj [(cs "items", JValue.arr xs)])] xs 0).bind
          (fun out => Except.ok (out ++ []))) := rfl
  rw [hstep, c2_eachGo xs 0]
  simp
  rfl

/-! ### Plain-path pipeline lemmas (C4, C5) -/

theorem ws_of_ident_false {c : Char} (h : isIdentChar c = true) :
    isWsChar c = false := by
  cases hw : isWsChar c with
  | false => rfl
  | true =>
    exfalso
    unfold isWsChar at hw
    simp only [Bool.or_eq_true, decide_eq_true_eq] at hw
    rcases hw with ((((h1 | h1) | h1) | h1) | h1) | h1 <;>
      (subst h1; exact absurd h (by decide))

theorem path_char_facts {p : List Char} (hp : isValidPath p = true) :
    ∀ c ∈ p, c ≠ '\x7d' ∧ c ≠ '\x7b' ∧ c ≠ '#' ∧ c ≠ '/' ∧ isWsChar c = false := by
  intro c hc
  rcases chars_of_isValidPath hp c hc with hi | hd
  · refine ⟨?_, ?_, ?_, ?_, ws_of_ident_false hi⟩ <;>
      (intro h; subst h; exact absurd hi (by decide))
  · subst hd
    exact ⟨by decide, by decide, by decide, by decide, by decide⟩

theorem validPath_ne_nil {p : List Char} (hp : isValidPath p = true) : p ≠ [] := by
  intro h
  subst h
  exact absurd hp (by decide)

/-- A valid plain path is classified as a plain Variable by the scanner's
expression classifier. -/
theorem processExpression_plain {p : List Char} (hp : isValidPath p = true) :
    processExpression p false = .ok [Token.var p] := by
  obtain ⟨c, t, hct⟩ : ∃ c t, p = c :: t := by
    cases p with
    | nil => exact absurd rfl (validPath_ne_nil hp)
    | cons c t => exact ⟨c, t, rfl⟩
  have hcfacts := path_char_facts hp c (by rw [hct]; simp)
  unfold processExpression
  rw [if_neg (by simp)]
  rw [hct]
  rw [if_neg (by
        show ¬ ('#' :: cs "if ").isPrefixOf (c :: t) = true
        rw [isPrefixOf_cons_of_ne _ _ (Ne.symm hcfacts.2.2.1)]; simp),
      if_neg (by
        show ¬ ('#' :: cs "each ").isPrefixOf (c :: t) = true
        rw [isPrefixOf_cons_of_ne _ _ (Ne.symm hcfacts.2.2.1)]; simp),
      if_neg (by intro h; exact hcfacts.2.2.2.1 (by injection h)),
      if_neg (by intro h; exact hcfacts.2.2.2.1 (by injection h)),
      if_neg (by
        show ¬ ('/' :: ([] : List Char)).isPrefixOf (c :: t) = true
        rw [isPrefixOf_cons_of_ne _ _ (Ne.symm hcfacts.2.2.2.1)]; simp)]

/-- A valid plain path scans to one Variable token when wrapped in a
double marker. -/
theorem tokenize_plain_var {p : List Char} (hp : isValidPath p = true) :
    tokenize (cs "\x7b\x7b" ++ p ++ cs "\x7d\x7d") = .ok [Token.var p] := by
  have hfacts := path_char_facts hp
  have htrim : trimL p = p := trimL_of_no_ws (fun c hc => (hfacts c hc).2.2.2.2)
  have := tokenize_double p [Token.var p]
    (fun c hc => (hfacts c hc).1)
    (by
      obtain ⟨c, t, hct⟩ : ∃ c t, p = c :: t := by
        cases p with
        | nil => exact absurd rfl (validPath_ne_nil hp)
        | cons c t => exact ⟨c, t, rfl⟩
      rw [hct]
      intro h
      exact (hfacts c (by rw [hct]; simp)).2.1 (by injection h))
    (by rw [htrim]; exact processExpression_plain hp)
  exact this

/-- A valid plain path scans to one RawVariable token when wrapped in a
triple marker. -/
theorem tokenize_plain_raw {p : List Char} (hp : isValidPath p = true) :
    tokenize (cs "\x7b\x7b\x7b" ++ p ++ cs "\x7d\x7d\x7d") = .ok [Token.raw p] := by
  have hfacts := path_char_facts hp
  have htrim : trimL p = p := trimL_of_no_ws (fun c hc => (hfacts c hc).2.2.2.2)
  have := tokenize_triple p (fun c hc => (hfacts c hc).1)
  rw [htrim] at this
  exact this

/-- `_generateAccessCode` on a plain dotted path (not `this`-rooted, not
complex) compiles to the safe lookup. -/
theorem generateAccessCode_plain {p : List Char} (lc : Option LoopCtx)
    (h1 : isValidPath p = true) (h2 : isComplexExpression p = false)
    (h3 : (cs "this.").isPrefixOf p = false) (h4 : p ≠ cs "this") :
    generateAccessCode p lc = .ok (.get p) := by
  unfold generateAccessCode
  rw [if_neg h4]
  rw [h3]
  simp only [Bool.false_eq_true, if_false]
  rw [h2]
  simp only [Bool.false_eq_true, if_false]
  rw [h1]
  simp

/-- C4 (amended): for an escaped variable whose expression is a plain
dotted identifier path that is not `this`-rooted and not classified
complex, the artifact renders `escapeHtml (deepGet ctx path)` and never
raises: `deepGet` is total, walking stops with `undefined` at a missing
or non-composite intermediate, and `undefined` escapes to the empty
string. -/
theorem C4_amended :
    (∀ (g : Nat → List Char) (p : List Char) (ctx : JValue),
      isValidPath p = true → isComplexExpression p = false →
      (cs "this.").isPrefixOf p = false → p ≠ cs "this" →
      runTemplate g (cs "\x7b\x7b" ++ p ++ cs "\x7d\x7d") ctx =
        .ok (.ok (escapeHtml (deepGet ctx p))))
  ∧ (∀ (v : JValue) (k : List Char) (ks : List (List Char)),
      (v = .null ∨ v = .undef ∨ isObjectTypeof v = false) →
      deepGetWalk v (k :: ks) = .undef)
  ∧ escapeHtml .undef = [] := by
  refine ⟨?_, ?_, rfl⟩
  · intro g p ctx h1 h2 h3 h4
    unfold runTemplate compileTemplate
    rw [tokenize_plain_var h1]
    have hfacts := path_char_facts h1
    have htrim : trimL p = p := trimL_of_no_ws (fun c hc => (hfacts c hc).2.2.2.2)
    have hvar : generateVariableCode p false none = .ok [Stmt.pushEscaped (.get p)] := by
      unfold generateVariableCode
      rw [htrim, if_neg (validPath_ne_nil h1), generateAccessCode_plain none h1 h2 h3 h4]
      rfl
    have hcomp : compileAst g (Node.root [Node.variable p]) =
        .ok [Stmt.pushEscaped (.get p)] := by
      simp only [compileAst, generateNodeListCode, generateNodeCode, hvar]
      rfl
    show Except.map (fun a => invoke a ctx)
      (compileAst g (Node.root [Node.variable p])) = _
    rw [hcomp]
    have hinv : invoke [Stmt.pushEscaped (.get p)] ctx =
        .ok (escapeHtml (deepGet ctx p) ++ []) := rfl
    show Except.ok (invoke [Stmt.pushEscaped (.get p)] ctx) = _
    rw [hinv, List.append_nil]
  · intro v k ks hv
    rcases hv with h | h | h
    · subst h; rfl
    · subst h; rfl
    · cases v <;> first | rfl | simp [isObjectTypeof] at h

theorem C4_amended_witness :
    runTemplate supplyA (cs "\x7b\x7b" ++ cs "a.b.c" ++ cs "\x7d\x7d")
        (JValue.obj []) = .ok (.ok (escapeHtml (deepGet (JValue.obj []) (cs "a.b.c")))) ∧
    escapeHtml (deepGet (JValue.obj []) (cs "a.b.c")) = [] :=
  ⟨C4_amended.1 supplyA (cs "a.b.c") (JValue.obj []) (by decide) (by decide)
    (by decide) (by decide), by decide⟩

/-- C5 (amended): a RawVariable over a plain dotted identifier path
renders the unescaped `String(...)` form of the looked-up value, with no
null-to-empty rule: `null` renders as the text `null` and a missing value
as the text `undefined`. -/
theorem C5_amended :
    (∀ (g : Nat → List Char) (p : List Char) (ctx : JValue),
      isValidPath p = true → isComplexExpression p = false →
      (cs "this.").isPrefixOf p = false → p ≠ cs "this" →
      runTemplate g (cs "\x7b\x7b\x7b" ++ p ++ cs "\x7d\x7d\x7d") ctx =
        .ok (.ok (jsString (deepGet ctx p))))
  ∧ jsString .null = cs "null"
  ∧ jsString .undef = cs "undefined" := by
  refine ⟨?_, rfl, rfl⟩
  intro g p ctx h1 h2 h3 h4
  unfold runTemplate compileTemplate
  rw [tokenize_plain_raw h1]
  have hfacts := path_char_facts h1
  have htrim : trimL p = p := trimL_of_no_ws (fun c hc => (hfacts c hc).2.2.2.2)
  have hvar : generateVariableCode p true none = .ok [Stmt.pushRaw (.get p)] := by
    unfold generateVariableCode
    rw [htrim, if_neg (validPath_ne_nil h1), generateAccessCode_plain none h1 h2 h3 h4]
    rfl
  have hcomp : compileAst g (Node.root [Node.rawVariable p]) =
      .ok [Stmt.pushRaw (.get p)] := by
    simp only [compileAst, generateNodeListCode, generateNodeCode, hvar]
    rfl
  show Except.map (fun a => invoke a ctx)
    (compileAst g (Node.root [Node.rawVariable p])) = _
  rw [hcomp]
  have hinv : invoke [Stmt.pushRaw (.get p)] ctx =
      .ok (jsString (deepGet ctx p) ++ []) := rfl
  show Except.ok (invoke [Stmt.pushRaw (.get p)] ctx) = _
  rw [hinv, List.append_nil]

theorem C5_amended_witness :
    runTemplate supplyA (cs "\x7b\x7b\x7b" ++ cs "x" ++ cs "\x7d\x7d\x7d")
        (JValue.obj [(cs "x", JValue.null)]) =
      .ok (.ok (jsString (deepGet (JValue.obj [(cs "x", JValue.null)]) (cs "x")))) ∧
    jsString (deepGet (JValue.obj [(cs "x", JValue.null)]) (cs "x")) = cs "null" :=
  ⟨C5_amended.1 supplyA (cs "x") (JValue.obj [(cs "x", JValue.null)]) (by decide)
    (by decide) (by decide) (by decide), by decide⟩

/-! ### C1: `this.<path>` compiles to direct member access -/

/-- The name `this.<path>` is rewritten onto: the innermost item binding
in a loop, the context parameter at top level. -/
def accessBase : Option LoopCtx → List Char
  | none => cs "ctx"
  | some lc => lc.itemName

/-- The loop contexts the compiler actually constructs: the item binding
is an `item_`-prefixed identifier. -/
def lcOk : Option LoopCtx → Prop
  | none => True
  | some lc => (cs "item_").isPrefixOf lc.itemName = true ∧
      isIdentSeg lc.itemName = true

theorem identStart_identChar {c : Char} (h : isIdentStart c = true) :
    isIdentChar c = true := by
  unfold isIdentChar
  rw [h]
  rfl

theorem identSeg_chars {seg : List Char} (h : isIdentSeg seg = true) :
    ∀ c ∈ seg, isIdentChar c = true := by
  cases seg with
  | nil => intro c hc; simp at hc
  | cons c0 rest =>
    unfold isIdentSeg at h
    rw [Bool.and_eq_true] at h
    intro c hc
    rcases List.mem_cons.mp hc with h0 | hr
    · subst h0; exact identStart_identChar h.1
    · exact List.all_eq_true.mp h.2 c hr

theorem validChars_ne {p : List Char} (hp : isValidPath p = true) (bad : Char)
    (hb1 : isIdentChar bad = false) (hb2 : bad ≠ '.') : ∀ c ∈ p, c ≠ bad := by
  intro c hc heq
  subst heq
  rcases chars_of_isValidPath hp _ hc with hi | hd
  · rw [hi] at hb1; cases hb1
  · exact hb2 hd

theorem identChars_ne {seg : List Char} (hs : isIdentSeg seg = true) (bad : Char)
    (hb1 : isIdentChar bad = false) : ∀ c ∈ seg, c ≠ bad := by
  intro c hc heq
  subst heq
  rw [identSeg_chars hs _ hc] at hb1
  cases hb1

/-- `_compileComplexExpression` on a plain member chain with no loop
scope: the text passes through untouched and validates. -/
theorem cce_chain_none (t : List Char)
    (hat : containsSub (cs "@index") t = false)
    (harrow : containsSub (cs "=>") t = false)
    (hvalid : isValidPath t = true) :
    compileComplexExpression t none = .ok t := by
  unfold compileComplexExpression
  dsimp only
  rw [hat]
  simp only [Bool.false_eq_true, if_false]
  rw [harrow]
  simp only [Bool.false_eq_true, if_false]
  unfold validateJsExpr
  rw [hvalid, Bool.or_true]
  rfl

/-- `_compileComplexExpression` on a member chain that is not
`this`-rooted, under a loop scope: the text passes through untouched and
validates. -/
theorem cce_chain_some (l : LoopCtx) (t : List Char)
    (hat : containsSub (cs "@index") t = false)
    (hne : t ≠ cs "this")
    (hpre : (cs "this.").isPrefixOf t = false)
    (harrow : containsSub (cs "=>") t = false)
    (hvalid : isValidPath t = true) :
    compileComplexExpression t (some l) = .ok t := by
  unfold compileComplexExpression
  dsimp only
  rw [hat]
  simp only [Bool.false_eq_true, if_false]
  rw [if_neg hne, hpre]
  simp only [Bool.false_eq_true, if_false]
  rw [harrow]
  simp only [Bool.false_eq_true, if_false]
  unfold validateJsExpr
  rw [hvalid, Bool.or_true]
  rfl

/-- The compilation of `this.<path>`: the source rewrites the prefix onto
the base binding and passes the result through
`_compileComplexExpression`, which leaves the member chain intact and
validates it. -/
theorem generateAccessCode_thisPath (p : List Char) (lc : Option LoopCtx)
    (hlc : lcOk lc) (hp : isValidPath p = true) :
    generateAccessCode (cs "this." ++ p) lc =
      .ok (.js (accessBase lc ++ '.' :: p)) := by
  have hne : cs "this." ++ p ≠ cs "this" := by
    intro h
    have := congrArg List.length h
    simp [cs] at this
  have hpre : ((cs "this.").isPrefixOf (cs "this." ++ p)) = true :=
    isPrefixOf_append_self (cs "this.") p
  have hdrop : (cs "this." ++ p).drop 5 = p := List.drop_left' (by rfl)
  unfold generateAccessCode
  rw [if_neg hne, if_pos hpre]
  cases lc with
  | none =>
    show Except.map CExpr.js
      (compileComplexExpression (cs "ctx." ++ (cs "this." ++ p).drop 5) none) = _
    rw [hdrop]
    have hat : containsSub (cs "@index") (cs "ctx." ++ p) = false := by
      apply containsSub_eq_false_of_no_head (h := '@')
      intro c hc
      rcases List.mem_append.mp hc with h | h
      · exact (by decide : ∀ c ∈ cs "ctx.", c ≠ '@') c h
      · exact validChars_ne hp '@' (by decide) (by decide) c h
    have harrow : containsSub (cs "=>") (cs "ctx." ++ p) = false := by
      apply containsSub_eq_false_of_no_head (h := '=')
      intro c hc
      rcases List.mem_append.mp hc with h | h
      · exact (by decide : ∀ c ∈ cs "ctx.", c ≠ '=') c h
      · exact validChars_ne hp '=' (by decide) (by decide) c h
    have hvalid : isValidPath (cs "ctx." ++ p) = true := by
      unfold isValidPath
      show ((splitDot (cs "ctx" ++ '.' :: p)).all isIdentSeg) = true
      rw [splitDot_append_cons _ _ (by decide : ∀ c ∈ cs "ctx", c ≠ '.')]
      rw [List.all_cons, show isIdentSeg (cs "ctx") = true from rfl, Bool.true_and]
      exact hp
    rw [cce_chain_none _ hat harrow hvalid]
    rfl
  | some l =>
    obtain ⟨hpre2, hseg⟩ := hlc
    obtain ⟨lid, hlid⟩ := exists_append_of_isPrefixOf hpre2
    show Except.map CExpr.js
      (compileComplexExpression (l.itemName ++ '.' :: (cs "this." ++ p).drop 5)
        (some l)) = _
    rw [hdrop]
    have hat : containsSub (cs "@index") (l.itemName ++ '.' :: p) = false := by
      apply containsSub_eq_false_of_no_head (h := '@')
      intro c hc
      rcases List.mem_append.mp hc with h | h
      · exact identChars_ne hseg '@' (by decide) c h
      · rcases List.mem_cons.mp h with h | h
        · subst h; decide
        · exact validChars_ne hp '@' (by decide) (by decide) c h
    have harrow : containsSub (cs "=>") (l.itemName ++ '.' :: p) = false := by
      apply containsSub_eq_false_of_no_head (h := '=')
      intro c hc
      rcases List.mem_append.mp hc with h | h
      · exact identChars_ne hseg '=' (by decide) c h
      · rcases List.mem_cons.mp h with h | h
        · subst h; decide
        · exact validChars_ne hp '=' (by decide) (by decide) c h
    have hshape : l.itemName ++ '.' :: p = 'i' :: (cs "tem_" ++ lid ++ '.' :: p) := by
      rw [hlid]
      rfl
    have hnethis : l.itemName ++ '.' :: p ≠ cs "this" := by
      rw [hshape]
      intro h
      injection h with h1 _
      exact absurd h1 (by decide)
    have hnethisdot : (cs "this.").isPrefixOf (l.itemName ++ '.' :: p) = false := by
      rw [hshape]
      show ('t' :: cs "his.").isPrefixOf ('i' :: (cs "tem_" ++ lid ++ '.' :: p)) = false
      exact isPrefixOf_cons_of_ne _ _ (by decide)
    have hvalid : isValidPath (l.itemName ++ '.' :: p) = true := by
      unfold isValidPath
      rw [splitDot_append_cons _ _ (identChars_ne hseg '.' (by decide))]
      rw [List.all_cons, hseg, Bool.true_and]
      exact hp
    rw [cce_chain_some l _ hat hnethis hnethisdot harrow hvalid]
    rfl

/-- C1 (amended): a `this.<path>` expression is rewritten to the
innermost item binding (in a loop) or the context parameter (at top
level), but compiled as the direct member-access chain
`<base>.<path>` — not through the safe nested-path lookup — so invoking
the artifact raises a TypeError when a strict intermediate of the path
resolves to undefined or null (e.g. a missing key with two more segments
to walk). -/
theorem C1_amended :
    (∀ (p : List Char) (lc : Option LoopCtx), lcOk lc → isValidPath p = true →
      generateAccessCode (cs "this." ++ p) lc =
        .ok (.js (accessBase lc ++ '.' :: p)))
  ∧ runTemplate supplyA (cs "\x7b\x7bthis.x.y\x7d\x7d")
      (JValue.obj [(cs "z", JValue.num 1)]) = .ok (.error .typeErr) := by
  exact ⟨fun p lc hlc hp => generateAccessCode_thisPath p lc hlc hp, by rfl⟩

theorem C1_amended_witness :
    generateAccessCode (cs "this." ++ cs "a.b") none =
      .ok (.js (accessBase none ++ '.' :: cs "a.b")) :=
  C1_amended.1 (cs "a.b") none trivial (by decide)

/-! ### C3: the parenthesized comparison grammar -/

theorem contains_eq_false_of_all_ne {x : Char} {R : List Char}
    (h : ∀ c ∈ R, c ≠ x) : R.contains x = false := by
  cases hc : R.contains x with
  | false => rfl
  | true => exact absurd (List.elem_iff.mp hc) (fun hm => h x hm rfl)

theorem filter_range_eq_single {p : Nat → Bool} :
    ∀ (n m : Nat), m < n → p m = true → (∀ k, k < n → k ≠ m → p k = false) →
      (List.range n).filter p = [m] := by
  intro n
  induction n with
  | zero => intro m hm _ _; omega
  | succ q ih =>
    intro m hm hp ho
    rw [List.range_succ, List.filter_append]
    by_cases hmn : m = q
    · subst hmn
      have h1 : (List.range m).filter p = [] := by
        apply List.filter_eq_nil_iff.mpr
        intro k hk
        have hkn : k < m := List.mem_range.mp hk
        rw [ho k (by omega) (by omega)]
        simp
      rw [h1]
      simp [hp]
    · have h2 := ih m (by omega) hp (fun k hk hkm => ho k (by omega) hkm)
      rw [h2]
      have h3 : p q = false := ho q (by omega) (fun h => hmn h.symm)
      simp [h3]

/-- The greedy group-2/group-3 split point of the comparison regex on a
remainder with exactly one whitespace character between the operands. -/
theorem findG2_spec (l r : List Char) (hl : ∀ c ∈ l, isWsChar c = false)
    (hr : ∀ c ∈ r, isWsChar c = false) (hlne : l ≠ []) (hrne : r ≠ []) :
    findG2 (l ++ ' ' :: r) = some l.length := by
  have hllen : 1 ≤ l.length := List.length_pos.mpr hlne
  have hrlen : 1 ≤ r.length := List.length_pos.mpr hrne
  have hRlen : (l ++ ' ' :: r).length = l.length + 1 + r.length := by
    simp [List.length_append]
    omega
  unfold findG2
  rw [filter_range_eq_single (l ++ ' ' :: r).length l.length
      (by omega)
      (by
        simp only [List.head?_drop, List.getElem?_append_right (le_refl l.length),
          Nat.sub_self]
        rw [hRlen]
        simp only [Bool.and_eq_true, decide_eq_true_eq]
        refine ⟨⟨by omega, by omega⟩, by simp; decide⟩)
      (by
        intro k hk hkm
        simp only [List.head?_drop]
        rcases Nat.lt_trichotomy k l.length with hlt | heq | hgt
        · have hget : (l ++ ' ' :: r)[k]? = some (l.get ⟨k, hlt⟩) := by
            rw [List.getElem?_append, if_pos hlt, List.getElem?_eq_getElem hlt]
            rfl
          rw [hget]
          show (decide (1 ≤ k) && decide (k + 2 ≤ (l ++ ' ' :: r).length)
            && isWsChar (l.get ⟨k, hlt⟩)) = false
          rw [hl _ (List.get_mem l k hlt)]
          simp
        · exact absurd heq hkm
        · by_cases hk2 : k + 2 ≤ (l ++ ' ' :: r).length
          · have hge : l.length ≤ k := by omega
            have hjlt : k - l.length - 1 < r.length := by rw [hRlen] at hk2; omega
            have hidx : (' ' :: r)[k - l.length]? = r[k - l.length - 1]? := by
              rw [show k - l.length = (k - l.length - 1) + 1 from by omega]
              simp
            have hget : (l ++ ' ' :: r)[k]? = some (r.get ⟨k - l.length - 1, hjlt⟩) := by
              rw [List.getElem?_append_right hge, hidx, List.getElem?_eq_getElem hjlt]
              rfl
            rw [hget]
            show (decide (1 ≤ k) && decide (k + 2 ≤ (l ++ ' ' :: r).length)
              && isWsChar (r.get ⟨k - l.length - 1, hjlt⟩)) = false
            rw [hr _ (List.get_mem r _ hjlt)]
            simp
          · have hd : decide (k + 2 ≤ (l ++ ' ' :: r).length) = false :=
              decide_eq_false hk2
            show (decide (1 ≤ k) && decide (k + 2 ≤ (l ++ ' ' :: r).length)
              && match (l ++ ' ' :: r)[k]? with
                 | some c => isWsChar c
                 | none => false) = false
            rw [hd]
            simp)]
  rfl

theorem greedySplit_spec (l r : List Char) (hl : ∀ c ∈ l, isWsChar c = false)
    (hr : ∀ c ∈ r, isWsChar c = false) (hlne : l ≠ []) (hrne : r ≠ []) :
    greedySplit (l ++ ' ' :: r) = some (l, r) := by
  have hrlen : 1 ≤ r.length := List.length_pos.mpr hrne
  unfold greedySplit
  rw [findG2_spec l r hl hr hlne hrne]
  dsimp only
  have hdrop : (l ++ ' ' :: r).drop l.length = ' ' :: r := List.drop_left' rfl
  rw [hdrop]
  have htw : (' ' :: r).takeWhile isWsChar = [' '] := by
    obtain ⟨c0, t0, hct⟩ : ∃ c0 t0, r = c0 :: t0 := by
      cases r with
      | nil => exact absurd rfl hrne
      | cons c0 t0 => exact ⟨c0, t0, rfl⟩
    have hc0 : isWsChar c0 = false := hr c0 (by rw [hct]; simp)
    rw [hct]
    simp [List.takeWhile_cons, hc0, show isWsChar ' ' = true from by decide]
  rw [htw]
  have hmin : min ([' '] : List Char).length ((l ++ ' ' :: r).length - l.length - 1) =
      1 := by
    simp [List.length_append]
    omega
  rw [hmin, List.take_left]
  have hdr : (l ++ ' ' :: r).drop (l.length + 1) = r := by
    rw [List.drop_append 1]
    rfl
  rw [hdr]

/-- The comparison regex `^\((\w+)\s+([^)]+)\s+([^)]+)\)$` on a condition
of the shape `(op left right)` with single spaces and whitespace-free,
paren-free operands: the greedy split returns the two operands. -/
theorem matchComparison_paren (opn l r : List Char)
    (hop : opn ≠ []) (hopw : ∀ c ∈ opn, isWordChar c = true)
    (hlne : l ≠ []) (hrne : r ≠ [])
    (hl : ∀ c ∈ l, isWsChar c = false ∧ c ≠ ')')
    (hr : ∀ c ∈ r, isWsChar c = false ∧ c ≠ ')') :
    matchComparison ('(' :: ((opn ++ ' ' :: (l ++ ' ' :: r)) ++ [')'])) =
      some (opn, l, r) := by
  show matchCmpInner ((opn ++ ' ' :: (l ++ ' ' :: r)) ++ [')']) = some (opn, l, r)
  unfold matchCmpInner
  rw [List.getLast?_concat, if_pos rfl]
  dsimp only
  rw [List.dropLast_concat]
  have htop : (opn ++ ' ' :: (l ++ ' ' :: r)).takeWhile isWordChar = opn := by
    rw [takeWhile_append_of_all hopw]
    simp [List.takeWhile_cons, show isWordChar ' ' = false from rfl]
  rw [htop, if_neg hop]
  rw [List.drop_left]
  obtain ⟨c0, t0, hct⟩ : ∃ c0 t0, l = c0 :: t0 := by
    cases l with
    | nil => exact absurd rfl hlne
    | cons c0 t0 => exact ⟨c0, t0, rfl⟩
  have htws : (' ' :: (l ++ ' ' :: r)).takeWhile isWsChar = [' '] := by
    have hc0 : isWsChar c0 = false := (hl c0 (by rw [hct]; simp)).1
    rw [hct]
    simp [List.takeWhile_cons, hc0, show isWsChar ' ' = true from by decide]
  rw [htws, if_neg (by simp)]
  have hdropws : (' ' :: (l ++ ' ' :: r)).drop ([' '] : List Char).length =
      l ++ ' ' :: r := rfl
  rw [hdropws]
  have hcont : (l ++ ' ' :: r).contains ')' = false := by
    apply contains_eq_false_of_all_ne
    intro c hc
    rcases List.mem_append.mp hc with h | h
    · exact (hl c h).2
    · rcases List.mem_cons.mp h with h | h
      · subst h; decide
      · exact (hr c h).2
  rw [hcont]
  simp only [Bool.false_eq_true, if_false]
  rw [greedySplit_spec l r (fun c hc => (hl c hc).1) (fun c hc => (hr c hc).1)
    hlne hrne]

theorem trimL_paren (X : List Char) :
    trimL ('(' :: (X ++ [')'])) = '(' :: (X ++ [')'])  := by
  unfold trimL
  have h1 : List.dropWhile isWsChar ('(' :: (X ++ [')'])) = '(' :: (X ++ [')']) := rfl
  rw [h1]
  have h2 : ('(' :: (X ++ [')'])).reverse = ')' :: (X.reverse ++ ['(']) := by
    simp
  rw [h2]
  have h3 : List.dropWhile isWsChar (')' :: (X.reverse ++ ['('])) =
      ')' :: (X.reverse ++ ['(']) := rfl
  rw [h3, ← h2, List.reverse_reverse]

/-- C3: a parenthesized binary condition `(op left right)` with an
operator in the recognized set compiles to the corresponding binary
comparison of the two independently compiled operands; the comparison
semantics is strict (`eq`/`neq` are `===`/`!==`), so `(eq a b)` renders
`yes` for `\x7ba:1,b:1\x7d`, nothing for `\x7ba:1,b:2\x7d`, and — with no implicit
coercion — nothing for `\x7ba:1,b:"1"\x7d`. -/
theorem C3_comparison_conditions :
    (∀ (opn l r : List Char) (o : BinOp) (lc : Option LoopCtx),
      opn ≠ [] → (∀ c ∈ opn, isWordChar c = true) →
      l ≠ [] → r ≠ [] →
      (∀ c ∈ l, isWsChar c = false ∧ c ≠ ')') →
      (∀ c ∈ r, isWsChar c = false ∧ c ≠ ')') →
      opOf opn = some o →
      generateConditionCode ('(' :: ((opn ++ ' ' :: (l ++ ' ' :: r)) ++ [')'])) lc =
        (do
          let lv ← generateComparisonOperand l lc
          let rv ← generateComparisonOperand r lc
          Except.ok (CExpr.bin o lv rv)))
  ∧ runTemplate supplyA (cs "\x7b\x7b#if (eq a b)\x7d\x7dyes\x7b\x7b/if\x7d\x7d")
      (JValue.obj [(cs "a", JValue.num 1), (cs "b", JValue.num 1)]) =
      .ok (.ok (cs "yes"))
  ∧ runTemplate supplyA (cs "\x7b\x7b#if (eq a b)\x7d\x7dyes\x7b\x7b/if\x7d\x7d")
      (JValue.obj [(cs "a", JValue.num 1), (cs "b", JValue.num 2)]) =
      .ok (.ok [])
  ∧ runTemplate supplyA (cs "\x7b\x7b#if (eq a b)\x7d\x7dyes\x7b\x7b/if\x7d\x7d")
      (JValue.obj [(cs "a", JValue.num 1), (cs "b", JValue.str (cs "1"))]) =
      .ok (.ok []) := by
  refine ⟨?_, by rfl, by rfl, by rfl⟩
  intro opn l r o lc hop hopw hlne hrne hl hr hopOf
  unfold generateConditionCode
  dsimp only
  rw [trimL_paren, matchComparison_paren opn l r hop hopw hlne hrne hl hr]
  have htl : trimL l = l := trimL_of_no_ws (fun c hc => (hl c hc).1)
  have htr : trimL r = r := trimL_of_no_ws (fun c hc => (hr c hc).1)
  show (do
    let lv ← generateComparisonOperand (trimL l) lc
    let rv ← generateComparisonOperand (trimL r) lc
    match opOf opn with
    | some o2 => Except.ok (CExpr.bin o2 lv rv)
    | none => Except.error ("Unsupported comparison operator: " ++ opn.asString)) = _
  rw [htl, htr]
  simp only [hopOf]

theorem C3_comparison_witness :
    generateConditionCode ('(' :: ((cs "eq" ++ ' ' :: (cs "a" ++ ' ' :: cs "b")) ++
        [')'])) none =
      (do
        let lv ← generateComparisonOperand (cs "a") none
        let rv ← generateComparisonOperand (cs "b") none
        Except.ok (CExpr.bin BinOp.eq lv rv)) :=
  C3_comparison_conditions.1 (cs "eq") (cs "a") (cs "b") BinOp.eq none
    (by decide) (by decide) (by decide) (by decide) (by decide) (by decide) rfl

/-! ## Claim C9: observable determinism of compilation -/
/-! ### Character-level facts for the determinism claim -/

theorem containsSub_append_free {h : Char} {pat : List Char} (a s : List Char)
    (ha : ∀ c ∈ a, c ≠ h) :
    containsSub (h :: pat) (a ++ s) = containsSub (h :: pat) s := by
  unfold containsSub
  rw [findSub_append_of_ne_head a s ha]
  cases findSub (h :: pat) s <;> rfl

theorem splitDot_no_dot {t : List Char} (h : ∀ c ∈ t, c ≠ '.') :
    splitDot t = [t] := by
  induction t with
  | nil => rfl
  | cons c rest ih =>
    rw [splitDot_cons_ne c rest (h c (by simp)),
      ih (fun x hx => h x (by simp [hx]))]

theorem digits_of_isIntLit {t : List Char} (h : isIntLit t = true) :
    ∀ c ∈ t, c.isDigit = true ∨ c = '-' := by
  intro c hc
  cases t with
  | nil => simp at hc
  | cons a rest =>
    by_cases ha : a = '-'
    · subst ha
      have h2 : rest.all Char.isDigit = true := by
        have : isIntLit ('-' :: rest) = (!rest.isEmpty && rest.all Char.isDigit) := rfl
        rw [this, Bool.and_eq_true] at h
        exact h.2
      rcases List.mem_cons.mp hc with h0 | hr
      · exact Or.inr h0
      · exact Or.inl (List.all_eq_true.mp h2 c hr)
    · unfold isIntLit at h
      split at h
      · simp at h
      · next ds heq =>
        rw [List.cons.injEq] at heq
        exact absurd heq.1 ha
      · exact Or.inl (List.all_eq_true.mp h c hc)

/-! ### Generated binding names -/

theorem itemSeg_ok {id : List Char} (h : idOk id = true) :
    isIdentSeg (cs "item_" ++ id) = true := by
  unfold idOk at h
  rw [Bool.and_eq_true] at h
  show isIdentSeg ('i' :: (cs "tem_" ++ id)) = true
  unfold isIdentSeg
  rw [Bool.and_eq_true, List.all_append, Bool.and_eq_true]
  exact ⟨by decide, by decide, h.2⟩

theorem indexSeg_ok {id : List Char} (h : idOk id = true) :
    isIdentSeg (cs "index_" ++ id) = true := by
  unfold idOk at h
  rw [Bool.and_eq_true] at h
  show isIdentSeg ('i' :: (cs "ndex_" ++ id)) = true
  unfold isIdentSeg
  rw [Bool.and_eq_true, List.all_append, Bool.and_eq_true]
  exact ⟨by decide, by decide, h.2⟩

/-- Characters of a generated item binding avoid any non-identifier
character. -/
theorem itemName_chars_ne {id : List Char} (h : idOk id = true) (bad : Char)
    (hb : isIdentChar bad = false) : ∀ c ∈ cs "item_" ++ id, c ≠ bad :=
  identChars_ne (itemSeg_ok h) bad hb

theorem indexName_chars_ne {id : List Char} (h : idOk id = true) (bad : Char)
    (hb : isIdentChar bad = false) : ∀ c ∈ cs "index_" ++ id, c ≠ bad :=
  identChars_ne (indexSeg_ok h) bad hb

/-- An item binding name never equals an index binding name. -/
theorem itemName_ne_indexName (a b : List Char) :
    cs "item_" ++ a ≠ cs "index_" ++ b := by
  intro h
  rw [show cs "item_" ++ a = 'i' :: 't' :: (cs "em_" ++ a) from rfl,
    show cs "index_" ++ b = 'i' :: 'n' :: (cs "dex_" ++ b) from rfl] at h
  simp at h

theorem indexName_ne_this (a : List Char) : cs "index_" ++ a ≠ cs "this" := by
  intro h
  rw [show cs "index_" ++ a = 'i' :: (cs "ndex_" ++ a) from rfl,
    show cs "this" = 't' :: cs "his" from rfl] at h
  simp at h

theorem thisPre_indexName (a : List Char) :
    (cs "this.").isPrefixOf (cs "index_" ++ a) = false := by
  rw [show cs "this." = 't' :: cs "his." from rfl,
    show cs "index_" ++ a = 'i' :: (cs "ndex_" ++ a) from rfl]
  exact isPrefixOf_cons_of_ne _ _ (by decide)

/-- A generated binding name is a single dot-free identifier segment. -/
theorem splitDot_name {pre id : List Char} (hseg : isIdentSeg (pre ++ id) = true) :
    splitDot (pre ++ id) = [pre ++ id] :=
  splitDot_no_dot (identChars_ne hseg '.' (by decide))

/-- A generated binding name never equals the parameter name `ctx`. -/
theorem itemName_ne_ctx (a : List Char) : cs "item_" ++ a ≠ cs "ctx" := by
  intro h
  rw [show cs "item_" ++ a = 'i' :: (cs "tem_" ++ a) from rfl,
    show cs "ctx" = 'c' :: cs "tx" from rfl] at h
  simp at h

theorem indexName_ne_ctx (a : List Char) : cs "index_" ++ a ≠ cs "ctx" := by
  intro h
  rw [show cs "index_" ++ a = 'i' :: (cs "ndex_" ++ a) from rfl,
    show cs "ctx" = 'c' :: cs "tx" from rfl] at h
  simp at h

theorem itemsName_ne_ctx (a : List Char) : cs "items_" ++ a ≠ cs "ctx" := by
  intro h
  rw [show cs "items_" ++ a = 'i' :: (cs "tems_" ++ a) from rfl,
    show cs "ctx" = 'c' :: cs "tx" from rfl] at h
  simp at h

/-! ### Environment lookups -/

/-- The `ctx` parameter is found under every loop stack: no generated
binding name can equal it. -/
theorem lookupEnv_mkEnv_ctx (g : Nat → List Char) (c : JValue)
    (L : List (Nat × JValue × JValue × Nat)) :
    lookupEnv (mkEnv g c L) (cs "ctx") = some c := by
  induction L with
  | nil =>
    show (if cs "ctx" = cs "ctx" then some c else lookupEnv [] (cs "ctx")) = _
    rw [if_pos rfl]
  | cons e L ih =>
    obtain ⟨k, vs, x, i⟩ := e
    show (if cs "item_" ++ g k = cs "ctx" then some x else
      if cs "index_" ++ g k = cs "ctx" then some (.num i) else
      if cs "items_" ++ g k = cs "ctx" then some vs else
      lookupEnv (mkEnv g c L) (cs "ctx")) = _
    rw [if_neg (itemName_ne_ctx (g k)), if_neg (indexName_ne_ctx (g k)),
      if_neg (itemsName_ne_ctx (g k))]
    exact ih

/-! ### Evaluation agreement for related expression texts -/

/-- The bare `ctx` text evaluates to the context under any loop stack. -/
theorem evalJsText_ctx (g : Nat → List Char) (c : JValue)
    (L : List (Nat × JValue × JValue × Nat)) :
    evalJsText (cs "ctx") (mkEnv g c L) = .ok c := by
  unfold evalJsText
  rw [show isIntLit (cs "ctx") = false from by decide]
  simp only [Bool.false_eq_true, if_false]
  rw [show splitDot (cs "ctx") = [cs "ctx"] from by decide]
  show (match lookupEnv (mkEnv g c L) (cs "ctx") with
    | none => Except.error RtErr.refErr
    | some v => walkProps v []) = _
  rw [lookupEnv_mkEnv_ctx g c L]
  rfl

/-- A `ctx`-rooted member chain walks the shared property path from the
context, under any loop stack. -/
theorem evalJsText_ctxDot (g : Nat → List Char) (p : List Char) (c : JValue)
    (L : List (Nat × JValue × JValue × Nat)) :
    evalJsText (cs "ctx." ++ p) (mkEnv g c L) = walkProps c (splitDot p) := by
  unfold evalJsText
  have hmem : 'c' ∈ cs "ctx." ++ p := by
    rw [show cs "ctx." ++ p = 'c' :: (cs "tx." ++ p) from rfl]
    simp
  have hint : isIntLit (cs "ctx." ++ p) = false := by
    cases hi : isIntLit (cs "ctx." ++ p) with
    | false => rfl
    | true =>
      rcases digits_of_isIntLit hi 'c' hmem with h | h
      · cases h
      · cases h
  rw [hint]
  simp only [Bool.false_eq_true, if_false]
  rw [show cs "ctx." ++ p = cs "ctx" ++ '.' :: p from rfl,
    splitDot_append_cons (cs "ctx") p (by decide)]
  show (match lookupEnv (mkEnv g c L) (cs "ctx") with
    | none => Except.error RtErr.refErr
    | some v => walkProps v (splitDot p)) = _
  rw [lookupEnv_mkEnv_ctx g c L]

/-- An integer-literal text evaluates to its value in any environment. -/
theorem evalJsText_int (s : List Char) (h : isIntLit s = true) (env : Env) :
    evalJsText s env = .ok (.num (parseNumLit s)) := by
  unfold evalJsText
  rw [h, if_pos rfl]

/-- The generated item binding evaluates to the current loop item. -/
theorem evalJsText_item (g : Nat → List Char) (k : Nat) (hid : idOk (g k) = true)
    (c vs x : JValue) (i : Nat) (L : List (Nat × JValue × JValue × Nat)) :
    evalJsText (cs "item_" ++ g k) (mkEnv g c ((k, vs, x, i) :: L)) = .ok x := by
  unfold evalJsText
  have hint : isIntLit (cs "item_" ++ g k) = false := by
    cases hi : isIntLit (cs "item_" ++ g k) with
    | false => rfl
    | true =>
      rcases digits_of_isIntLit hi 'i' (by
        rw [show cs "item_" ++ g k = 'i' :: (cs "tem_" ++ g k) from rfl]
        simp) with h | h
      · cases h
      · cases h
  rw [hint]
  simp only [Bool.false_eq_true, if_false]
  rw [splitDot_name (itemSeg_ok hid)]
  show (match lookupEnv (mkEnv g c ((k, vs, x, i) :: L)) (cs "item_" ++ g k) with
    | none => Except.error RtErr.refErr
    | some v => walkProps v []) = _
  rw [show lookupEnv (mkEnv g c ((k, vs, x, i) :: L)) (cs "item_" ++ g k) = some x by
    show (if cs "item_" ++ g k = cs "item_" ++ g k then some x else _) = some x
    rw [if_pos rfl]]
  rfl

/-- The generated index binding evaluates to the current loop index. -/
theorem evalJsText_index (g : Nat → List Char) (k : Nat) (hid : idOk (g k) = true)
    (c vs x : JValue) (i : Nat) (L : List (Nat × JValue × JValue × Nat)) :
    evalJsText (cs "index_" ++ g k) (mkEnv g c ((k, vs, x, i) :: L)) =
      .ok (.num i) := by
  unfold evalJsText
  have hint : isIntLit (cs "index_" ++ g k) = false := by
    cases hi : isIntLit (cs "index_" ++ g k) with
    | false => rfl
    | true =>
      rcases digits_of_isIntLit hi 'i' (by
        rw [show cs "index_" ++ g k = 'i' :: (cs "ndex_" ++ g k) from rfl]
        simp) with h | h
      · cases h
      · cases h
  rw [hint]
  simp only [Bool.false_eq_true, if_false]
  rw [splitDot_name (indexSeg_ok hid)]
  show (match lookupEnv (mkEnv g c ((k, vs, x, i) :: L)) (cs "index_" ++ g k) with
    | none => Except.error RtErr.refErr
    | some v => walkProps v []) = _
  rw [show lookupEnv (mkEnv g c ((k, vs, x, i) :: L)) (cs "index_" ++ g k) =
      some (.num i) by
    show (if cs "item_" ++ g k = cs "index_" ++ g k then some x else
      (if cs "index_" ++ g k = cs "index_" ++ g k then some (.num i) else _)) = _
    rw [if_neg (itemName_ne_indexName _ _), if_pos rfl]]
  rfl

/-- The item-rooted member chain walks the shared property path from the
current loop item. -/
theorem evalJsText_itemDot (g : Nat → List Char) (k : Nat)
    (hid : idOk (g k) = true) (p : List Char)
    (c vs x : JValue) (i : Nat) (L : List (Nat × JValue × JValue × Nat)) :
    evalJsText (cs "item_" ++ g k ++ '.' :: p) (mkEnv g c ((k, vs, x, i) :: L)) =
      walkProps x (splitDot p) := by
  unfold evalJsText
  have hmem : 'i' ∈ cs "item_" ++ g k ++ '.' :: p := by
    rw [show cs "item_" ++ g k ++ '.' :: p =
      'i' :: (cs "tem_" ++ g k ++ '.' :: p) from by simp [cs]]
    simp
  have hint : isIntLit (cs "item_" ++ g k ++ '.' :: p) = false := by
    cases hi : isIntLit (cs "item_" ++ g k ++ '.' :: p) with
    | false => rfl
    | true =>
      rcases digits_of_isIntLit hi 'i' hmem with h | h
      · cases h
      · cases h
  rw [hint]
  simp only [Bool.false_eq_true, if_false]
  rw [splitDot_append_cons _ p (identChars_ne (itemSeg_ok hid) '.' (by decide))]
  show (match lookupEnv (mkEnv g c ((k, vs, x, i) :: L)) (cs "item_" ++ g k) with
    | none => Except.error RtErr.refErr
    | some v => walkProps v (splitDot p)) = _
  rw [show lookupEnv (mkEnv g c ((k, vs, x, i) :: L)) (cs "item_" ++ g k) = some x by
    show (if cs "item_" ++ g k = cs "item_" ++ g k then some x else _) = some x
    rw [if_pos rfl]]

/-- Related compiled expressions evaluate identically in the two
corresponding environments. -/
theorem evalCExpr_sim (gA gB : Nat → List Char) (hA : ∀ n, idOk (gA n) = true)
    (hB : ∀ n, idOk (gB n) = true) (c : JValue) :
    ∀ {ks : List Nat} {eA eB : CExpr}, CRel gA gB ks eA eB →
      ∀ (L : List (Nat × JValue × JValue × Nat)), ks = L.map (fun e => e.1) →
        evalCExpr eA (mkEnv gA c L) = evalCExpr eB (mkEnv gB c L) := by
  intro ks eA eB h
  induction h with
  | js ht =>
    intro L hL
    cases ht
    case ctx0 =>
      show evalJsText (cs "ctx") _ = evalJsText (cs "ctx") _
      rw [evalJsText_ctx gA c L, evalJsText_ctx gB c L]
    case ctxDot p =>
      show evalJsText (cs "ctx." ++ p) _ = evalJsText (cs "ctx." ++ p) _
      rw [evalJsText_ctxDot gA p c L, evalJsText_ctxDot gB p c L]
    case intL s hs =>
      show evalJsText s _ = evalJsText s _
      rw [evalJsText_int s hs, evalJsText_int s hs]
    case item k ks =>
      cases L with
      | nil => cases hL
      | cons e L2 =>
        obtain ⟨k2, vs, x, i⟩ := e
        rw [List.map_cons] at hL
        injection hL with hk hks
        subst hk
        show evalJsText (cs "item_" ++ gA k) _ = evalJsText (cs "item_" ++ gB k) _
        rw [evalJsText_item gA k (hA k) c vs x i L2,
          evalJsText_item gB k (hB k) c vs x i L2]
    case index k ks =>
      cases L with
      | nil => cases hL
      | cons e L2 =>
        obtain ⟨k2, vs, x, i⟩ := e
        rw [List.map_cons] at hL
        injection hL with hk hks
        subst hk
        show evalJsText (cs "index_" ++ gA k) _ = evalJsText (cs "index_" ++ gB k) _
        rw [evalJsText_index gA k (hA k) c vs x i L2,
          evalJsText_index gB k (hB k) c vs x i L2]
    case itemDot k ks p =>
      cases L with
      | nil => cases hL
      | cons e L2 =>
        obtain ⟨k2, vs, x, i⟩ := e
        rw [List.map_cons] at hL
        injection hL with hk hks
        subst hk
        show evalJsText (cs "item_" ++ gA k ++ '.' :: p) _ =
          evalJsText (cs "item_" ++ gB k ++ '.' :: p) _
        rw [evalJsText_itemDot gA k (hA k) p c vs x i L2,
          evalJsText_itemDot gB k (hB k) p c vs x i L2]
  | get p =>
    intro L hL
    show (match lookupEnv (mkEnv gA c L) (cs "ctx") with
      | some v => Except.ok (deepGet v p)
      | none => Except.error RtErr.refErr) =
      (match lookupEnv (mkEnv gB c L) (cs "ctx") with
      | some v => Except.ok (deepGet v p)
      | none => Except.error RtErr.refErr)
    rw [lookupEnv_mkEnv_ctx gA c L, lookupEnv_mkEnv_ctx gB c L]
  | strLit s => intro L hL; rfl
  | numLit s => intro L hL; rfl
  | bin op hl hr ihl ihr =>
    intro L hL
    cases op <;> simp only [evalCExpr] <;> rw [ihl L hL, ihr L hL]
  | truthy he ihe =>
    intro L hL
    show (evalCExpr _ _).map _ = (evalCExpr _ _).map _
    rw [ihe L hL]

/-- Related statement lists have equal nesting depth, so the two
artifacts run on the same fuel. -/
theorem SRels_depth {gA gB : Nat → List Char} :
    ∀ {ks : List Nat} {sA sB : List Stmt}, SRels gA gB ks sA sB →
      stmtsDepth sA = stmtsDepth sB := by
  intro ks sA sB h
  induction h with
  | nil => rfl
  | lit t hr ih => simp only [stmtsDepth, stmtDepth]; rw [ih]
  | esc hc hr ih => simp only [stmtsDepth, stmtDepth]; rw [ih]
  | raw hc hr ih => simp only [stmtsDepth, stmtDepth]; rw [ih]
  | ifs hc hb hr ihb ihr => simp only [stmtsDepth, stmtDepth]; rw [ihb, ihr]
  | each k hc hb hr ihb ihr => simp only [stmtsDepth, stmtDepth]; rw [ihb, ihr]

/-- Main evaluation simulation: related artifacts produce identical
results (success text, runtime error kind, or fuel exhaustion) in the two
corresponding environments, at any shared fuel. -/
theorem eval_sim (gA gB : Nat → List Char) (hA : ∀ n, idOk (gA n) = true)
    (hB : ∀ n, idOk (gB n) = true) (c : JValue) :
    ∀ (fuel : Nat) {ks : List Nat} {sA sB : List Stmt}, SRels gA gB ks sA sB →
      ∀ (L : List (Nat × JValue × JValue × Nat)), ks = L.map (fun e => e.1) →
        evalN fuel sA (mkEnv gA c L) = evalN fuel sB (mkEnv gB c L) := by
  intro fuel
  induction fuel with
  | zero => intro ks sA sB h L hL; rfl
  | succ fuel ih =>
    intro ks sA sB h
    induction h with
    | nil => intro L hL; rfl
    | lit t hrest ihrest =>
      intro L hL
      show evalList (evalN fuel) _ _ = evalList (evalN fuel) _ _
      simp only [evalList]
      have h2 : evalList (evalN fuel) _ (mkEnv gA c L) =
        evalList (evalN fuel) _ (mkEnv gB c L) := ihrest L hL
      rw [h2]
    | esc hce hrest ihrest =>
      intro L hL
      show evalList (evalN fuel) _ _ = evalList (evalN fuel) _ _
      simp only [evalList]
      have h2 : evalList (evalN fuel) _ (mkEnv gA c L) =
        evalList (evalN fuel) _ (mkEnv gB c L) := ihrest L hL
      rw [h2, evalCExpr_sim gA gB hA hB c hce L hL]
    | raw hce hrest ihrest =>
      intro L hL
      show evalList (evalN fuel) _ _ = evalList (evalN fuel) _ _
      simp only [evalList]
      have h2 : evalList (evalN fuel) _ (mkEnv gA c L) =
        evalList (evalN fuel) _ (mkEnv gB c L) := ihrest L hL
      rw [h2, evalCExpr_sim gA gB hA hB c hce L hL]
    | ifs hcc hbody hrest ihbody ihrest =>
      intro L hL
      show evalList (evalN fuel) _ _ = evalList (evalN fuel) _ _
      simp only [evalList]
      have h2 : evalList (evalN fuel) _ (mkEnv gA c L) =
        evalList (evalN fuel) _ (mkEnv gB c L) := ihrest L hL
      rw [h2, evalCExpr_sim gA gB hA hB c hcc L hL, ih hbody L hL]
    | @each ks2 iA iB bA bB rA2 rB2 k hci hbody hrest ihbody ihrest =>
      intro L hL
      show evalList (evalN fuel) _ _ = evalList (evalN fuel) _ _
      simp only [evalList]
      have h2 : evalList (evalN fuel) _ (mkEnv gA c L) =
        evalList (evalN fuel) _ (mkEnv gB c L) := ihrest L hL
      have heach : ∀ (xs0 xs : List JValue) (i : Nat),
          eachGo (evalN fuel) (cs "item_" ++ gA k) (cs "index_" ++ gA k) bA
            ((cs "items_" ++ gA k, JValue.arr xs0) :: mkEnv gA c L) xs i =
          eachGo (evalN fuel) (cs "item_" ++ gB k) (cs "index_" ++ gB k) bB
            ((cs "items_" ++ gB k, JValue.arr xs0) :: mkEnv gB c L) xs i := by
        intro xs0 xs
        induction xs with
        | nil => intro i; rfl
        | cons x xs ihx =>
          intro i
          have hb : evalN fuel bA
              ((cs "item_" ++ gA k, x) :: (cs "index_" ++ gA k, JValue.num i) ::
                (cs "items_" ++ gA k, JValue.arr xs0) :: mkEnv gA c L) =
            evalN fuel bB
              ((cs "item_" ++ gB k, x) :: (cs "index_" ++ gB k, JValue.num i) ::
                (cs "items_" ++ gB k, JValue.arr xs0) :: mkEnv gB c L) :=
            ih hbody ((k, JValue.arr xs0, x, i) :: L) (by rw [List.map_cons, ← hL])
          show (do
            let out ← evalN fuel bA ((cs "item_" ++ gA k, x) ::
              (cs "index_" ++ gA k, JValue.num i) ::
              (cs "items_" ++ gA k, JValue.arr xs0) :: mkEnv gA c L)
            let rest ← eachGo (evalN fuel) (cs "item_" ++ gA k)
              (cs "index_" ++ gA k) bA
              ((cs "items_" ++ gA k, JValue.arr xs0) :: mkEnv gA c L) xs (i + 1)
            Except.ok (out ++ rest)) = _
          rw [hb, ihx]
          rfl
      have hm : (do
          let v ← evalCExpr iA (mkEnv gA c L)
          match v with
          | JValue.arr xs =>
            eachGo (evalN fuel) (cs "item_" ++ gA k) (cs "index_" ++ gA k) bA
              ((cs "items_" ++ gA k, JValue.arr xs) :: mkEnv gA c L) xs 0
          | _ => Except.ok []) = (do
          let v ← evalCExpr iB (mkEnv gB c L)
          match v with
          | JValue.arr xs =>
            eachGo (evalN fuel) (cs "item_" ++ gB k) (cs "index_" ++ gB k) bB
              ((cs "items_" ++ gB k, JValue.arr xs) :: mkEnv gB c L) xs 0
          | _ => Except.ok []) := by
        rw [evalCExpr_sim gA gB hA hB c hci L hL]
        cases evalCExpr iB (mkEnv gB c L) with
        | error e => rfl
        | ok v =>
          show (match v with
            | JValue.arr xs => eachGo (evalN fuel) (cs "item_" ++ gA k)
                (cs "index_" ++ gA k) bA
                ((cs "items_" ++ gA k, JValue.arr xs) :: mkEnv gA c L) xs 0
            | _ => Except.ok []) = _
          cases v with
          | arr xs => exact heach xs xs 0
          | undef => rfl
          | null => rfl
          | bool b => rfl
          | num n => rfl
          | str s => rfl
          | obj fs => rfl
      rw [h2, hm]

/-! ### Compilation agreement: complex-expression texts -/

theorem replaceAll_atIndex (r : List Char) :
    replaceAll (cs "@index") r (cs "@index") = r := by
  unfold replaceAll
  rw [show splitSub (cs "@index") (cs "@index") = [[], []] from by decide]
  simp [List.intercalate]

/-- `@index` standalone under a loop compiles to the index binding. -/
theorem cce_atIndex_some (g : Nat → List Char) (k : Nat) (ks : List Nat)
    (hid : idOk (g k) = true) :
    compileComplexExpression (cs "@index") (mkLc g (k :: ks)) =
      .ok (cs "index_" ++ g k) := by
  show compileComplexExpression (cs "@index")
    (some (.mk (cs "item_" ++ g k) (cs "index_" ++ g k) (mkLc g ks))) = _
  unfold compileComplexExpression
  dsimp only [LoopCtx.indexName, LoopCtx.itemName]
  rw [show containsSub (cs "@index") (cs "@index") = true from by decide,
    if_pos rfl, replaceAll_atIndex,
    if_neg (indexName_ne_this (g k)), thisPre_indexName (g k)]
  simp only [Bool.false_eq_true, if_false]
  have harrI : containsSub (cs "=>") (cs "index_" ++ g k) = false :=
    containsSub_eq_false_of_no_head (indexName_chars_ne hid '=' (by decide))
  rw [harrI]
  simp only [Bool.false_eq_true, if_false]
  have hvalid : isValidPath (cs "index_" ++ g k) = true := by
    unfold isValidPath
    rw [splitDot_name (indexSeg_ok hid), List.all_cons, indexSeg_ok hid]
    rfl
  unfold validateJsExpr
  rw [hvalid, Bool.or_true]
  rfl

/-- `@index` standalone with no enclosing loop compiles to the literal 0. -/
theorem cce_atIndex_none :
    compileComplexExpression (cs "@index") none = .ok (cs "0") := by rfl

theorem itemDotText_ne_this (id p : List Char) :
    cs "item_" ++ id ++ '.' :: p ≠ cs "this" := by
  intro h
  rw [show cs "item_" ++ id ++ '.' :: p =
      'i' :: (cs "tem_" ++ id ++ '.' :: p) from by simp [cs],
    show cs "this" = 't' :: cs "his" from rfl] at h
  simp at h

theorem thisPre_itemDotText (id p : List Char) :
    (cs "this.").isPrefixOf (cs "item_" ++ id ++ '.' :: p) = false := by
  rw [show cs "this." = 't' :: cs "his." from rfl,
    show cs "item_" ++ id ++ '.' :: p =
      'i' :: (cs "tem_" ++ id ++ '.' :: p) from by simp [cs]]
  exact isPrefixOf_cons_of_ne _ _ (by decide)

theorem itemDotText_atIndex_free {p : List Char}
    (hp3 : containsSub (cs "@index") p = false) (id : List Char)
    (hid : idOk id = true) :
    containsSub (cs "@index") (cs "item_" ++ id ++ '.' :: p) = false := by
  have hfree : containsSub (cs "@index") ((cs "item_" ++ id ++ ['.']) ++ p) =
      containsSub (cs "@index") p := by
    apply containsSub_append_free (h := '@')
    intro c hc
    rcases List.mem_append.mp hc with h | h
    · exact itemName_chars_ne hid '@' (by decide) c h
    · rw [List.mem_singleton.mp h]; decide
  rw [show cs "item_" ++ id ++ '.' :: p =
    (cs "item_" ++ id ++ ['.']) ++ p from by simp, hfree]
  exact hp3

theorem itemDotText_arrow {p : List Char} (id : List Char)
    (hid : idOk id = true) :
    containsSub (cs "=>") (cs "item_" ++ id ++ '.' :: p) =
      containsSub (cs "=>") p := by
  have hfree : containsSub (cs "=>") ((cs "item_" ++ id ++ ['.']) ++ p) =
      containsSub (cs "=>") p := by
    apply containsSub_append_free (h := '=')
    intro c hc
    rcases List.mem_append.mp hc with h | h
    · exact itemName_chars_ne hid '=' (by decide) c h
    · rw [List.mem_singleton.mp h]; decide
  rw [show cs "item_" ++ id ++ '.' :: p =
    (cs "item_" ++ id ++ ['.']) ++ p from by simp, hfree]

theorem itemDotText_valid (id p : List Char) (hid : idOk id = true) :
    isValidPath (cs "item_" ++ id ++ '.' :: p) = (splitDot p).all isIdentSeg := by
  unfold isValidPath
  rw [show cs "item_" ++ id ++ '.' :: p = (cs "item_" ++ id) ++ '.' :: p
      from by simp,
    splitDot_append_cons _ p (identChars_ne (itemSeg_ok hid) '.' (by decide)),
    List.all_cons, itemSeg_ok hid, Bool.true_and]

/-- Characters of an integer literal are digits or the sign, so the
literal avoids any other character. -/
theorem intLit_chars_ne {e : List Char} (he : isIntLit e = true) (bad : Char)
    (h1 : bad.isDigit = false) (h2 : bad ≠ '-') : ∀ c ∈ e, c ≠ bad := by
  intro c hc hb
  subst hb
  rcases digits_of_isIntLit he c hc with h | h
  · rw [h] at h1; cases h1
  · exact h2 h

/-- Characters of a valid path avoid any character that is neither an
identifier character nor the dot. -/
theorem validPath_chars_ne {p : List Char} (hv : isValidPath p = true)
    (bad : Char) (h1 : isIdentChar bad = false) (h2 : bad ≠ '.') :
    ∀ c ∈ p, c ≠ bad := by
  intro c hc hb
  subst hb
  rcases chars_of_isValidPath hv c hc with h | h
  · rw [h] at h1; cases h1
  · exact h2 h

theorem validPath_no_at {p : List Char} (hv : isValidPath p = true) :
    containsSub (cs "@index") p = false :=
  containsSub_eq_false_of_no_head (validPath_chars_ne hv '@' (by decide) (by decide))

theorem validPath_no_arrow {p : List Char} (hv : isValidPath p = true) :
    containsSub (cs "=>") p = false :=
  containsSub_eq_false_of_no_head (validPath_chars_ne hv '=' (by decide) (by decide))

/-- Stripping the `this.` root of a path keeps (exactly) its validity. -/
theorem thisDot_valid (p : List Char) :
    isValidPath (cs "this." ++ p) = isValidPath p := by
  unfold isValidPath
  rw [show cs "this." ++ p = cs "this" ++ '.' :: p from rfl,
    splitDot_append_cons (cs "this") p (by decide), List.all_cons,
    show isIdentSeg (cs "this") = true from by decide, Bool.true_and]

/-- Prepending the `ctx.` root to a path keeps (exactly) its validity. -/
theorem ctxDot_valid (p : List Char) :
    isValidPath (cs "ctx." ++ p) = isValidPath p := by
  unfold isValidPath
  rw [show cs "ctx." ++ p = cs "ctx" ++ '.' :: p from rfl,
    splitDot_append_cons (cs "ctx") p (by decide), List.all_cons,
    show isIdentSeg (cs "ctx") = true from by decide, Bool.true_and]

/-- An integer literal passes `_compileComplexExpression` untouched: it
contains no `@index`, is not a `this` form, triggers no arrow rewrite and
validates. -/
theorem cce_intLit (e : List Char) (he : isIntLit e = true)
    (lc : Option LoopCtx) :
    compileComplexExpression e lc = .ok e := by
  have hat : containsSub (cs "@index") e = false :=
    containsSub_eq_false_of_no_head (intLit_chars_ne he '@' (by decide) (by decide))
  have harr : containsSub (cs "=>") e = false :=
    containsSub_eq_false_of_no_head (intLit_chars_ne he '=' (by decide) (by decide))
  have hthis : e ≠ cs "this" := by
    intro h
    subst h
    exact intLit_chars_ne he 't' (by decide) (by decide) 't' (by decide) rfl
  have hpre : (cs "this.").isPrefixOf e = false := by
    cases hp : (cs "this.").isPrefixOf e with
    | false => rfl
    | true =>
      obtain ⟨t, ht⟩ := exists_append_of_isPrefixOf hp
      have hmem : 't' ∈ e := by
        rw [ht]; exact List.mem_append_left _ (by decide)
      exact absurd rfl (intLit_chars_ne he 't' (by decide) (by decide) 't' hmem)
  have hvr : validateJsExpr e = true := by
    unfold validateJsExpr
    rw [he]
    rfl
  unfold compileComplexExpression
  dsimp only
  rw [hat]
  simp only [Bool.false_eq_true, if_false]
  cases lc with
  | none =>
    dsimp only
    rw [harr]
    simp only [Bool.false_eq_true, if_false]
    rw [hvr]
    rfl
  | some l =>
    dsimp only
    rw [if_neg hthis, hpre]
    simp only [Bool.false_eq_true, if_false]
    rw [harr]
    simp only [Bool.false_eq_true, if_false]
    rw [hvr]
    rfl

/-- The `ctx.`-rooted rewrite of a top-level `this.` path passes
`_compileComplexExpression` untouched and validates. -/
theorem cce_ctxDot (p : List Char) (hv : isValidPath p = true) :
    compileComplexExpression (cs "ctx." ++ p) none = .ok (cs "ctx." ++ p) := by
  have hcx : ∀ c ∈ cs "ctx." ++ p, isIdentChar c = true ∨ c = '.' := by
    intro c hc
    rcases List.mem_append.mp hc with h | h
    · rcases (by decide : ∀ x ∈ cs "ctx.", isIdentChar x = true ∨ x = '.') c h
        with h2 | h2
      · exact Or.inl h2
      · exact Or.inr h2
    · exact chars_of_isValidPath hv c h
  have hat : containsSub (cs "@index") (cs "ctx." ++ p) = false := by
    apply containsSub_eq_false_of_no_head
    intro c hc hb
    subst hb
    rcases hcx '@' hc with h | h
    · cases h
    · cases h
  have harr : containsSub (cs "=>") (cs "ctx." ++ p) = false := by
    apply containsSub_eq_false_of_no_head
    intro c hc hb
    subst hb
    rcases hcx '=' hc with h | h
    · cases h
    · cases h
  have hvr : validateJsExpr (cs "ctx." ++ p) = true := by
    unfold validateJsExpr
    rw [ctxDot_valid, hv, Bool.or_true]
  unfold compileComplexExpression
  dsimp only
  rw [hat]
  simp only [Bool.false_eq_true, if_false]
  rw [harr]
  simp only [Bool.false_eq_true, if_false]
  rw [hvr]
  rfl

/-- A fragment text with the `this.` prefix carries a valid tail path. -/
theorem fragTxt_thisDot {prop : List Char}
    (hfr : fragTxt (cs "this." ++ prop) = true) : isValidPath prop = true := by
  have hdrop : (cs "this." ++ prop).drop 5 = prop := List.drop_left' (by rfl)
  unfold fragTxt at hfr
  simp only [Bool.or_eq_true] at hfr
  rcases hfr with (((h | h) | h) | h) | h
  · rw [Bool.and_eq_true] at h
    have h1 := h.1
    rw [thisDot_valid] at h1
    exact h1
  · have he := eq_of_beq h
    have hlen := congrArg List.length he
    rw [List.length_append, show (cs "this.").length = 5 from rfl,
      show (cs "this").length = 4 from rfl] at hlen
    omega
  · rw [Bool.and_eq_true] at h
    have h2 := h.2
    rw [hdrop] at h2
    exact h2
  · have he := eq_of_beq h
    have hh := congrArg List.head? he
    rw [show (cs "this." ++ prop).head? = some 't' from rfl,
      show (cs "@index").head? = some '@' from rfl] at hh
    exact absurd (Option.some.inj hh) (by decide)
  · have hmem : 't' ∈ cs "this." ++ prop :=
      List.mem_append_left _ (by decide)
    exact absurd rfl (intLit_chars_ne h 't' (by decide) (by decide) 't' hmem)

/-- A complex fragment text that is no `this` form is the standalone
`@index` or an integer literal. -/
theorem fragTxt_complex {e : List Char} (hfr : fragTxt e = true)
    (hthis : ¬ e = cs "this") (hpre : ¬ (cs "this.").isPrefixOf e = true)
    (hcx : isComplexExpression e = true) :
    e = cs "@index" ∨ isIntLit e = true := by
  unfold fragTxt at hfr
  simp only [Bool.or_eq_true] at hfr
  rcases hfr with (((h | h) | h) | h) | h
  · rw [Bool.and_eq_true, hcx] at h
    exact absurd h.2 (by decide)
  · exact absurd (eq_of_beq h) hthis
  · rw [Bool.and_eq_true] at h
    exact absurd h.1 hpre
  · exact Or.inl (eq_of_beq h)
  · exact Or.inr h

/-- The item-rooted member chain through `_compileComplexExpression`:
with a valid dot-free property path and no arrow, the text passes through
untouched; otherwise compilation fails. -/
theorem cce_itemDot_ok (id p : List Char) (hid : idOk id = true)
    (hp3 : containsSub (cs "@index") p = false) (lc : Option LoopCtx)
    (hall : (splitDot p).all isIdentSeg = true)
    (harr : containsSub (cs "=>") p = false) :
    compileComplexExpression (cs "item_" ++ id ++ '.' :: p) lc =
      .ok (cs "item_" ++ id ++ '.' :: p) := by
  unfold compileComplexExpression
  dsimp only
  rw [itemDotText_atIndex_free hp3 id hid]
  simp only [Bool.false_eq_true, if_false]
  have hvr : validateJsExpr (cs "item_" ++ id ++ '.' :: p) = true := by
    unfold validateJsExpr
    rw [itemDotText_valid id p hid, hall, Bool.or_true]
  have harr2 : containsSub (cs "=>") (cs "item_" ++ id ++ '.' :: p) = false := by
    rw [itemDotText_arrow id hid]; exact harr
  cases lc with
  | none =>
    dsimp only
    rw [harr2]
    simp only [Bool.false_eq_true, if_false]
    rw [hvr]
    rfl
  | some l =>
    dsimp only
    rw [if_neg (itemDotText_ne_this id p), thisPre_itemDotText id p]
    simp only [Bool.false_eq_true, if_false]
    rw [harr2]
    simp only [Bool.false_eq_true, if_false]
    rw [hvr]
    rfl

theorem exceptAgree_map {α β α2 β2 : Type} {r : α → β → Prop} {r2 : α2 → β2 → Prop}
    {x : Except String α} {y : Except String β} (h : exceptAgree r x y)
    (f : α → α2) (g : β → β2) (hf : ∀ a b, r a b → r2 (f a) (g b)) :
    exceptAgree r2 (x.map f) (y.map g) := by
  cases x with
  | error m1 =>
    cases y with
    | error m2 => exact trivial
    | ok b => exact h.elim
  | ok a =>
    cases y with
    | error m2 => exact h.elim
    | ok b => exact hf a b h

/-- `_generateAccessCode` on one fragment text under the two supplies:
both reject, or both accept with related compiled expressions. -/
theorem access_sim (gA gB : Nat → List Char) (hA : ∀ n, idOk (gA n) = true)
    (hB : ∀ n, idOk (gB n) = true) (ks : List Nat) (e : List Char)
    (hfr : fragTxt e = true) :
    exceptAgree (CRel gA gB ks)
      (generateAccessCode e (mkLc gA ks))
      (generateAccessCode e (mkLc gB ks)) := by
  by_cases hthis : e = cs "this"
  · subst hthis
    cases ks with
    | nil =>
      unfold generateAccessCode
      rw [if_pos rfl]
      exact CRel.js (TRel.ctx0 [])
    | cons k ks2 =>
      unfold generateAccessCode
      rw [if_pos rfl]
      show exceptAgree _ (Except.ok (CExpr.js (cs "item_" ++ gA k)))
        (Except.ok (CExpr.js (cs "item_" ++ gB k)))
      exact CRel.js (TRel.item k ks2)
  · unfold generateAccessCode
    rw [if_neg hthis, if_neg hthis]
    by_cases hpre : (cs "this.").isPrefixOf e = true
    · obtain ⟨prop, hprop⟩ := exists_append_of_isPrefixOf hpre
      subst hprop
      have hvp : isValidPath prop = true := fragTxt_thisDot hfr
      have hdrop : (cs "this." ++ prop).drop 5 = prop :=
        List.drop_left' (by rfl)
      rw [if_pos hpre, if_pos hpre]
      cases ks with
      | nil =>
        show exceptAgree _
          ((compileComplexExpression
            (cs "ctx." ++ (cs "this." ++ prop).drop 5) none).map CExpr.js)
          ((compileComplexExpression
            (cs "ctx." ++ (cs "this." ++ prop).drop 5) none).map CExpr.js)
        rw [hdrop, cce_ctxDot prop hvp]
        exact CRel.js (TRel.ctxDot [] prop)
      | cons k ks2 =>
        show exceptAgree _
          ((compileComplexExpression
            (cs "item_" ++ gA k ++ '.' :: (cs "this." ++ prop).drop 5)
            (some (.mk (cs "item_" ++ gA k) (cs "index_" ++ gA k)
              (mkLc gA ks2)))).map CExpr.js)
          ((compileComplexExpression
            (cs "item_" ++ gB k ++ '.' :: (cs "this." ++ prop).drop 5)
            (some (.mk (cs "item_" ++ gB k) (cs "index_" ++ gB k)
              (mkLc gB ks2)))).map CExpr.js)
        rw [hdrop,
          cce_itemDot_ok (gA k) prop (hA k) (validPath_no_at hvp) _ hvp
            (validPath_no_arrow hvp),
          cce_itemDot_ok (gB k) prop (hB k) (validPath_no_at hvp) _ hvp
            (validPath_no_arrow hvp)]
        exact CRel.js (TRel.itemDot k ks2 prop)
    · rw [if_neg hpre, if_neg hpre]
      by_cases hcx : isComplexExpression e = true
      · rw [if_pos hcx, if_pos hcx]
        rcases fragTxt_complex hfr hthis hpre hcx with he | he
        · subst he
          cases ks with
          | nil =>
            rw [show mkLc gA [] = none from rfl, show mkLc gB [] = none from rfl,
              cce_atIndex_none]
            exact CRel.js (TRel.intL [] (cs "0") (by decide))
          | cons k ks2 =>
            rw [cce_atIndex_some gA k ks2 (hA k), cce_atIndex_some gB k ks2 (hB k)]
            exact CRel.js (TRel.index k ks2)
        · rw [cce_intLit e he (mkLc gA ks), cce_intLit e he (mkLc gB ks)]
          exact CRel.js (TRel.intL ks e he)
      · rw [if_neg hcx, if_neg hcx]
        by_cases hv : isValidPath e = true
        · rw [if_pos hv]
          exact CRel.get e
        · rw [if_neg hv]
          exact trivial

/-- `_generateComparisonOperand` on one fragment operand under the two
supplies. -/
theorem operand_sim (gA gB : Nat → List Char) (hA : ∀ n, idOk (gA n) = true)
    (hB : ∀ n, idOk (gB n) = true) (ks : List Nat) (o : List Char)
    (hok : okOperand (trimL o) = true) :
    exceptAgree (CRel gA gB ks)
      (generateComparisonOperand o (mkLc gA ks))
      (generateComparisonOperand o (mkLc gB ks)) := by
  unfold okOperand at hok
  simp only [Bool.or_eq_true] at hok
  unfold generateComparisonOperand
  dsimp only
  split
  · exact CRel.strLit _
  · next hq =>
    split
    · exact CRel.numLit _
    · next hi =>
      split
      · next hcx =>
        have he : trimL o = cs "@index" := by
          rcases hok with (((((h | h) | h) | h) | h) | h) | h
          · exact absurd ((Bool.or_eq_true _ _).mpr (Or.inl h)) hq
          · exact absurd ((Bool.or_eq_true _ _).mpr (Or.inr h)) hq
          · exact absurd h hi
          · rw [Bool.and_eq_true, hcx] at h
            exact absurd h.2 (by decide)
          · have h2 := eq_of_beq h
            rw [h2] at hcx
            exact absurd hcx (by decide)
          · rw [Bool.and_eq_true, hcx] at h
            exact absurd h.2 (by decide)
          · exact eq_of_beq h
        rw [he]
        cases ks with
        | nil =>
          rw [show mkLc gA [] = none from rfl, show mkLc gB [] = none from rfl,
            cce_atIndex_none]
          exact CRel.js (TRel.intL [] (cs "0") (by decide))
        | cons k ks2 =>
          rw [cce_atIndex_some gA k ks2 (hA k), cce_atIndex_some gB k ks2 (hB k)]
          exact CRel.js (TRel.index k ks2)
      · next hcx =>
        have hfrag : fragTxt (trimL o) = true := by
          unfold fragTxt
          simp only [Bool.or_eq_true]
          rcases hok with (((((h | h) | h) | h) | h) | h) | h
          · exact absurd ((Bool.or_eq_true _ _).mpr (Or.inl h)) hq
          · exact absurd ((Bool.or_eq_true _ _).mpr (Or.inr h)) hq
          · exact absurd h hi
          · exact Or.inl (Or.inl (Or.inl (Or.inl h)))
          · exact Or.inl (Or.inl (Or.inl (Or.inr h)))
          · rw [Bool.and_eq_true] at h
            exact Or.inl (Or.inl (Or.inr h.1))
          · exact Or.inl (Or.inr h)
        exact access_sim gA gB hA hB ks (trimL o) hfrag

/-- `_generateConditionCode` on one fragment condition under the two
supplies. -/
theorem condition_sim (gA gB : Nat → List Char) (hA : ∀ n, idOk (gA n) = true)
    (hB : ∀ n, idOk (gB n) = true) (ks : List Nat) (c0 : List Char)
    (hc : okCond c0 = true) :
    exceptAgree (CRel gA gB ks)
      (generateConditionCode c0 (mkLc gA ks))
      (generateConditionCode c0 (mkLc gB ks)) := by
  unfold okCond at hc
  unfold generateConditionCode
  dsimp only
  cases hm : matchComparison (trimL c0) with
  | some tri =>
    obtain ⟨op, left, right⟩ := tri
    rw [hm] at hc
    replace hc : (okOperand (trimL (trimL left)) &&
      okOperand (trimL (trimL right))) = true := hc
    rw [Bool.and_eq_true] at hc
    have hLA := operand_sim gA gB hA hB ks (trimL left) hc.1
    have hRA := operand_sim gA gB hA hB ks (trimL right) hc.2
    have hgoal : exceptAgree (CRel gA gB ks)
        (do
          let l ← generateComparisonOperand (trimL left) (mkLc gA ks)
          let r ← generateComparisonOperand (trimL right) (mkLc gA ks)
          match opOf op with
          | some o => Except.ok (CExpr.bin o l r)
          | none =>
            Except.error ("Unsupported comparison operator: " ++ op.asString))
        (do
          let l ← generateComparisonOperand (trimL left) (mkLc gB ks)
          let r ← generateComparisonOperand (trimL right) (mkLc gB ks)
          match opOf op with
          | some o => Except.ok (CExpr.bin o l r)
          | none =>
            Except.error ("Unsupported comparison operator: " ++ op.asString)) := by
      cases hla : generateComparisonOperand (trimL left) (mkLc gA ks) with
      | error m1 =>
        cases hlb : generateComparisonOperand (trimL left) (mkLc gB ks) with
        | error m2 => exact trivial
        | ok b => rw [hla, hlb] at hLA; exact hLA.elim
      | ok a =>
        cases hlb : generateComparisonOperand (trimL left) (mkLc gB ks) with
        | error m2 => rw [hla, hlb] at hLA; exact hLA.elim
        | ok b =>
          rw [hla, hlb] at hLA
          cases hra : generateComparisonOperand (trimL right) (mkLc gA ks) with
          | error m1 =>
            cases hrb : generateComparisonOperand (trimL right) (mkLc gB ks) with
            | error m2 => exact trivial
            | ok d => rw [hra, hrb] at hRA; exact hRA.elim
          | ok cc =>
            cases hrb : generateComparisonOperand (trimL right) (mkLc gB ks) with
            | error m2 => rw [hra, hrb] at hRA; exact hRA.elim
            | ok d =>
              rw [hra, hrb] at hRA
              cases ho : opOf op with
              | some o => exact CRel.bin o hLA hRA
              | none => exact trivial
    exact hgoal
  | none =>
    rw [hm] at hc
    replace hc : fragTxt (trimL c0) = true := hc
    by_cases hcx : isComplexExpression (trimL c0) = true
    · rw [if_pos hcx, if_pos hcx]
      exact exceptAgree_map (access_sim gA gB hA hB ks (trimL c0) hc)
        CExpr.truthy CExpr.truthy (fun a b hr => CRel.truthy hr)
    · rw [if_neg hcx, if_neg hcx]
      by_cases hpre : (cs "this.").isPrefixOf (trimL c0) = true
      · rw [if_pos hpre, if_pos hpre]
        cases ks with
        | nil =>
          show exceptAgree _
            (Except.ok (CExpr.truthy (CExpr.get ((trimL c0).drop 5))))
            (Except.ok (CExpr.truthy (CExpr.get ((trimL c0).drop 5))))
          exact CRel.truthy (CRel.get _)
        | cons k ks2 =>
          show exceptAgree _
            (Except.ok (CExpr.truthy (CExpr.js
              (cs "item_" ++ gA k ++ '.' :: (trimL c0).drop 5))))
            (Except.ok (CExpr.truthy (CExpr.js
              (cs "item_" ++ gB k ++ '.' :: (trimL c0).drop 5))))
          exact CRel.truthy (CRel.js (TRel.itemDot k ks2 _))
      · rw [if_neg hpre, if_neg hpre]
        by_cases hv : isValidPath (trimL c0) = true
        · rw [if_pos hv, if_pos hv]
          exact exceptAgree_map (access_sim gA gB hA hB ks (trimL c0) hc)
            CExpr.truthy CExpr.truthy (fun a b hr => CRel.truthy hr)
        · rw [if_neg hv, if_neg hv]
          exact trivial

theorem SRels_append {gA gB : Nat → List Char} :
    ∀ {ks : List Nat} {a1 b1 a2 b2 : List Stmt},
      SRels gA gB ks a1 b1 → SRels gA gB ks a2 b2 →
      SRels gA gB ks (a1 ++ a2) (b1 ++ b2) := by
  intro ks a1 b1 a2 b2 h1 h2
  induction h1 with
  | nil => exact h2
  | lit t hr ih => exact SRels.lit t (ih h2)
  | esc hc hr ih => exact SRels.esc hc (ih h2)
  | raw hc hr ih => exact SRels.raw hc (ih h2)
  | ifs hc hb hr ihb ihr => exact SRels.ifs hc hb (ihr h2)
  | each k hc hb hr ihb ihr => exact SRels.each k hc hb (ihr h2)

/-- `_generateVariableCode` under the two supplies. -/
theorem variable_sim (gA gB : Nat → List Char) (hA : ∀ n, idOk (gA n) = true)
    (hB : ∀ n, idOk (gB n) = true) (ks : List Nat) (e : List Char)
    (isRaw : Bool) (hok : fragTxt e = true) :
    exceptAgree (SRels gA gB ks)
      (generateVariableCode e isRaw (mkLc gA ks))
      (generateVariableCode e isRaw (mkLc gB ks)) := by
  unfold generateVariableCode
  by_cases htr : trimL e = []
  · rw [if_pos htr, if_pos htr]
    exact trivial
  · rw [if_neg htr, if_neg htr]
    refine exceptAgree_map (access_sim gA gB hA hB ks e hok) _ _ ?_
    intro a b hr
    cases isRaw with
    | true => exact SRels.raw hr (SRels.nil ks)
    | false => exact SRels.esc hr (SRels.nil ks)

mutual
theorem genNode_sim (gA gB : Nat → List Char) (hA : ∀ n, idOk (gA n) = true)
    (hB : ∀ n, idOk (gB n) = true) :
    ∀ (n : Node), okNode n = true → ∀ (cnt : Nat) (ks : List Nat),
      exceptAgree (fun pA pB => pA.2 = pB.2 ∧ SRels gA gB ks pA.1 pB.1)
        (generateNodeCode gA cnt (mkLc gA ks) n)
        (generateNodeCode gB cnt (mkLc gB ks) n)
  | .text v, _, cnt, ks => ⟨rfl, SRels.lit v (SRels.nil ks)⟩
  | .variable e, hok, cnt, ks => by
    have hv := variable_sim gA gB hA hB ks e false hok
    exact exceptAgree_map hv _ _ (fun a b hr => ⟨rfl, hr⟩)
  | .rawVariable e, hok, cnt, ks => by
    have hv := variable_sim gA gB hA hB ks e true hok
    exact exceptAgree_map hv _ _ (fun a b hr => ⟨rfl, hr⟩)
  | .ifN c kids, hok, cnt, ks => by
    replace hok : (okCond c && okNodes kids) = true := hok
    rw [Bool.and_eq_true] at hok
    have hcc := condition_sim gA gB hA hB ks c hok.1
    have hkids := genList_sim gA gB hA hB kids hok.2 cnt ks
    simp only [generateNodeCode]
    cases hca : generateConditionCode c (mkLc gA ks) with
    | error m1 =>
      cases hcb : generateConditionCode c (mkLc gB ks) with
      | error m2 => exact trivial
      | ok b => rw [hca, hcb] at hcc; exact hcc.elim
    | ok a =>
      cases hcb : generateConditionCode c (mkLc gB ks) with
      | error m2 => rw [hca, hcb] at hcc; exact hcc.elim
      | ok b =>
        rw [hca, hcb] at hcc
        cases hka : generateNodeListCode gA cnt (mkLc gA ks) kids with
        | error m1 =>
          cases hkb : generateNodeListCode gB cnt (mkLc gB ks) kids with
          | error m2 => exact trivial
          | ok pB => rw [hka, hkb] at hkids; exact hkids.elim
        | ok pA =>
          cases hkb : generateNodeListCode gB cnt (mkLc gB ks) kids with
          | error m2 => rw [hka, hkb] at hkids; exact hkids.elim
          | ok pB =>
            obtain ⟨ssA, cntA⟩ := pA
            obtain ⟨ssB, cntB⟩ := pB
            rw [hka, hkb] at hkids
            obtain ⟨hceq, hss⟩ := hkids
            cases hceq
            exact And.intro rfl (SRels.ifs hcc hss (SRels.nil ks))
  | .eachN it kids, hok, cnt, ks => by
    replace hok : (fragTxt it && okNodes kids) = true := hok
    rw [Bool.and_eq_true] at hok
    obtain ⟨hit, hkk⟩ := hok
    have hitems := access_sim gA gB hA hB ks it hit
    have hkids : exceptAgree
        (fun pA pB => pA.2 = pB.2 ∧ SRels gA gB (cnt :: ks) pA.1 pB.1)
        (generateNodeListCode gA (cnt + 1)
          (some (.mk (cs "item_" ++ gA cnt) (cs "index_" ++ gA cnt)
            (mkLc gA ks))) kids)
        (generateNodeListCode gB (cnt + 1)
          (some (.mk (cs "item_" ++ gB cnt) (cs "index_" ++ gB cnt)
            (mkLc gB ks))) kids) :=
      genList_sim gA gB hA hB kids hkk (cnt + 1) (cnt :: ks)
    simp only [generateNodeCode]
    cases hia : generateAccessCode it (mkLc gA ks) with
    | error m1 =>
      cases hib : generateAccessCode it (mkLc gB ks) with
      | error m2 => exact trivial
      | ok b => rw [hia, hib] at hitems; exact hitems.elim
    | ok a =>
      cases hib : generateAccessCode it (mkLc gB ks) with
      | error m2 => rw [hia, hib] at hitems; exact hitems.elim
      | ok b =>
        rw [hia, hib] at hitems
        cases hka : generateNodeListCode gA (cnt + 1)
            (some (.mk (cs "item_" ++ gA cnt) (cs "index_" ++ gA cnt)
              (mkLc gA ks))) kids with
        | error m1 =>
          cases hkb : generateNodeListCode gB (cnt + 1)
              (some (.mk (cs "item_" ++ gB cnt) (cs "index_" ++ gB cnt)
                (mkLc gB ks))) kids with
          | error m2 => exact trivial
          | ok pB => rw [hka, hkb] at hkids; exact hkids.elim
        | ok pA =>
          cases hkb : generateNodeListCode gB (cnt + 1)
              (some (.mk (cs "item_" ++ gB cnt) (cs "index_" ++ gB cnt)
                (mkLc gB ks))) kids with
          | error m2 => rw [hka, hkb] at hkids; exact hkids.elim
          | ok pB =>
            obtain ⟨ssA, cntA⟩ := pA
            obtain ⟨ssB, cntB⟩ := pB
            rw [hka, hkb] at hkids
            obtain ⟨hceq, hss⟩ := hkids
            cases hceq
            exact And.intro rfl (SRels.each cnt hitems hss (SRels.nil ks))
  | .root _, _, cnt, ks => trivial

theorem genList_sim (gA gB : Nat → List Char) (hA : ∀ n, idOk (gA n) = true)
    (hB : ∀ n, idOk (gB n) = true) :
    ∀ (ns : List Node), okNodes ns = true → ∀ (cnt : Nat) (ks : List Nat),
      exceptAgree (fun pA pB => pA.2 = pB.2 ∧ SRels gA gB ks pA.1 pB.1)
        (generateNodeListCode gA cnt (mkLc gA ks) ns)
        (generateNodeListCode gB cnt (mkLc gB ks) ns)
  | [], _, cnt, ks => ⟨rfl, SRels.nil ks⟩
  | n :: rest, hok, cnt, ks => by
    replace hok : (okNode n && okNodes rest) = true := hok
    rw [Bool.and_eq_true] at hok
    have h1 := genNode_sim gA gB hA hB n hok.1 cnt ks
    simp only [generateNodeListCode]
    cases hna : generateNodeCode gA cnt (mkLc gA ks) n with
    | error m1 =>
      cases hnb : generateNodeCode gB cnt (mkLc gB ks) n with
      | error m2 => exact trivial
      | ok pB => rw [hna, hnb] at h1; exact h1.elim
    | ok pA =>
      cases hnb : generateNodeCode gB cnt (mkLc gB ks) n with
      | error m2 => rw [hna, hnb] at h1; exact h1.elim
      | ok pB =>
        obtain ⟨ssA, cntA⟩ := pA
        obtain ⟨ssB, cntB⟩ := pB
        rw [hna, hnb] at h1
        obtain ⟨hceq, hss⟩ := h1
        cases hceq
        show exceptAgree (fun pA pB => pA.2 = pB.2 ∧ SRels gA gB ks pA.1 pB.1)
          (Except.bind (generateNodeListCode gA cntA (mkLc gA ks) rest)
            (fun q => Except.ok (ssA ++ q.1, q.2)))
          (Except.bind (generateNodeListCode gB cntA (mkLc gB ks) rest)
            (fun q => Except.ok (ssB ++ q.1, q.2)))
        have h2 := genList_sim gA gB hA hB rest hok.2 cntA ks
        cases hra : generateNodeListCode gA cntA (mkLc gA ks) rest with
        | error m1 =>
          cases hrb : generateNodeListCode gB cntA (mkLc gB ks) rest with
          | error m2 => exact trivial
          | ok qB => rw [hra, hrb] at h2; exact h2.elim
        | ok qA =>
          cases hrb : generateNodeListCode gB cntA (mkLc gB ks) rest with
          | error m2 => rw [hra, hrb] at h2; exact h2.elim
          | ok qB =>
            obtain ⟨ss2A, cnt2A⟩ := qA
            obtain ⟨ss2B, cnt2B⟩ := qB
            rw [hra, hrb] at h2
            obtain ⟨hceq2, hss2⟩ := h2
            cases hceq2
            exact And.intro rfl (SRels_append hss hss2)
end

/-- C9 (amended): compilation is observably deterministic on the
faithfully modelled fragment: for two supplies of drawn loop ids that are
runs of identifier characters and pairwise distinct within each run (as
`Math.random().toString(36).substr(2, 9)` produces), and a template whose
parsed expressions, items expressions, conditions and comparison operands
all lie in the fragment `fragTxt`/`okOperand`/`okCond` (plain non-complex
paths, `this` and `this.`-rooted paths, standalone `@index`, integer and
quoted literals), the two compilations fail together, and on success the
two artifacts return identical results (output text or runtime error
kind) on every context.  Outside the fragment the observable behaviour
can depend on the drawn ids (see the counterexample, where `@index`
inside a `this.` path leaks the id into a property name). -/
theorem C9_amended (gA gB : Nat → List Char)
    (hA : ∀ n, idOk (gA n) = true) (hB : ∀ n, idOk (gB n) = true)
    (hiA : ∀ m n : Nat, gA m = gA n → m = n)
    (hiB : ∀ m n : Nat, gB m = gB n → m = n)
    (template : List Char) (toks : List Token) (ast : Node)
    (htok : tokenize template = .ok toks) (hparse : parse toks = .ok ast)
    (hok : okNode ast = true) (ctx : JValue) :
    exceptAgree Eq (runTemplate gA template ctx)
      (runTemplate gB template ctx) := by
  have hcompA : compileTemplate gA template = compileAst gA ast := by
    unfold compileTemplate
    rw [htok]
    show Except.bind (parse toks) (fun y => compileAst gA y) = _
    rw [hparse]
    rfl
  have hcompB : compileTemplate gB template = compileAst gB ast := by
    unfold compileTemplate
    rw [htok]
    show Except.bind (parse toks) (fun y => compileAst gB y) = _
    rw [hparse]
    rfl
  unfold runTemplate
  rw [hcompA, hcompB]
  cases ast
  · exact trivial
  · exact trivial
  · exact trivial
  · exact trivial
  · exact trivial
  · rename_i kids
    replace hok : okNodes kids = true := hok
    show exceptAgree Eq
      ((Except.map (fun p => p.1)
        (generateNodeListCode gA 0 none kids)).map (fun a => invoke a ctx))
      ((Except.map (fun p => p.1)
        (generateNodeListCode gB 0 none kids)).map (fun a => invoke a ctx))
    have hsim : exceptAgree
        (fun pA pB => pA.2 = pB.2 ∧ SRels gA gB [] pA.1 pB.1)
        (generateNodeListCode gA 0 none kids)
        (generateNodeListCode gB 0 none kids) :=
      genList_sim gA gB hA hB kids hok 0 []
    cases hga : generateNodeListCode gA 0 none kids with
    | error m1 =>
      cases hgb : generateNodeListCode gB 0 none kids with
      | error m2 => exact trivial
      | ok pB => rw [hga, hgb] at hsim; exact hsim.elim
    | ok pA =>
      cases hgb : generateNodeListCode gB 0 none kids with
      | error m2 => rw [hga, hgb] at hsim; exact hsim.elim
      | ok pB =>
        obtain ⟨ssA, cA⟩ := pA
        obtain ⟨ssB, cB⟩ := pB
        rw [hga, hgb] at hsim
        obtain ⟨hceq, hss⟩ := hsim
        show invoke ssA ctx = invoke ssB ctx
        show evalN (stmtsDepth ssA + 1) ssA [(cs "ctx", ctx)] =
          evalN (stmtsDepth ssB + 1) ssB [(cs "ctx", ctx)]
        rw [SRels_depth hss]
        exact eval_sim gA gB hA hB ctx (stmtsDepth ssB + 1) hss [] rfl

/-- C9 (amended, witness): the two concrete supplies on the spec's own
each-example and context. -/
theorem C9_amended_witness :
    (∀ n, idOk (supplyA n) = true) ∧ (∀ n, idOk (supplyB n) = true) ∧
    (∀ m n : Nat, supplyA m = supplyA n → m = n) ∧
    (∀ m n : Nat, supplyB m = supplyB n → m = n) ∧
    exceptAgree Eq
      (runTemplate supplyA
        (cs "\x7b\x7b#each items\x7d\x7d\x7b\x7b@index\x7d\x7d:\x7b\x7bthis\x7d\x7d \x7b\x7b/each\x7d\x7d")
        (JValue.obj [(cs "items",
          JValue.arr [JValue.str (cs "a"), JValue.str (cs "b"),
            JValue.str (cs "c")])]))
      (runTemplate supplyB
        (cs "\x7b\x7b#each items\x7d\x7d\x7b\x7b@index\x7d\x7d:\x7b\x7bthis\x7d\x7d \x7b\x7b/each\x7d\x7d")
        (JValue.obj [(cs "items",
          JValue.arr [JValue.str (cs "a"), JValue.str (cs "b"),
            JValue.str (cs "c")])])) := by
  have pfA : ∀ n, idOk (supplyA n) = true := by
    intro n
    unfold idOk supplyA
    rw [Bool.and_eq_true]
    refine ⟨by simp, ?_⟩
    rw [List.all_eq_true]
    intro c hc
    rw [List.eq_of_mem_replicate hc]
    decide
  have pfB : ∀ n, idOk (supplyB n) = true := by
    intro n
    unfold idOk supplyB
    rw [Bool.and_eq_true]
    refine ⟨by simp, ?_⟩
    rw [List.all_eq_true]
    intro c hc
    rw [List.eq_of_mem_replicate hc]
    decide
  have injA : ∀ m n : Nat, supplyA m = supplyA n → m = n := by
    intro m n h
    have hlen := congrArg List.length h
    rw [show (supplyA m).length = m + 1 by simp [supplyA],
      show (supplyA n).length = n + 1 by simp [supplyA]] at hlen
    omega
  have injB : ∀ m n : Nat, supplyB m = supplyB n → m = n := by
    intro m n h
    have hlen := congrArg List.length h
    rw [show (supplyB m).length = m + 1 by simp [supplyB],
      show (supplyB n).length = n + 1 by simp [supplyB]] at hlen
    omega
  refine ⟨pfA, pfB, injA, injB, ?_⟩
  exact C9_amended supplyA supplyB pfA pfB injA injB _
    [Token.eachStart (cs "items"), Token.var (cs "@index"), Token.text (cs ":"),
      Token.var (cs "this"), Token.text (cs " "), Token.eachEnd]
    (Node.root [Node.eachN (cs "items")
      [Node.variable (cs "@index"), Node.text (cs ":"),
        Node.variable (cs "this"), Node.text (cs " ")]])
    (by rfl) (by rfl) (by decide) _

end JF
